import Mathlib

/-!
Verification development for the prefect deployment-steps pipeline engine
(template resolver, step invoker, pipeline runner) and the JSON serializer.

The pipeline engine itself (prefect/deployments/steps/core.py and the
placeholder templating utilities) is not part of the sources available
here; only its test suite is.  Those components are therefore modelled
from the specification document, definition by definition, with each such
definition marked `Modelled from the spec`.  The JSON serializer
(src/prefect/serializers.py) is available and is embedded directly; the
external collaborators it calls (the stdlib `json` module, UTF-8
encoding, the dynamic import machinery) are modelled from their
documented behaviour.
-/

namespace PrefectSpec

/-- JSON-like values: the data that flows through step parameters, step
outputs and the serializer.  Mirrors the Python data model (None, bool,
int, str, list, dict with string keys). -/
inductive JValue where
  | null
  | bool (b : Bool)
  | int (n : Int)
  | str (s : String)
  | list (xs : List JValue)
  | obj (kvs : List (String × JValue))
deriving Repr, BEq, Inhabited

/-- An association list of string keys, modelling a Python dict
(insertion ordered, first binding of a key is its value). -/
abbrev Obj := List (String × JValue)

/-- Dict lookup: value of the first binding of key `k`. -/
def lookupA (kvs : Obj) (k : String) : Option JValue :=
  match kvs with
  | [] => none
  | (k', v) :: rest => if k' = k then some v else lookupA rest k

/-- Dict update for a single key, as in Python `d[k] = v`: replace the
first binding of `k`, or append a new binding if the key is absent. -/
def upsertA (kvs : Obj) (k : String) (v : JValue) : Obj :=
  match kvs with
  | [] => [(k, v)]
  | (k', v') :: rest => if k' = k then (k, v) :: rest else (k', v') :: upsertA rest k v

/-- Remove every binding of key `k`, as in Python `d.pop(k, None)` on a
dict with unique keys. -/
def removeKey (kvs : Obj) (k : String) : Obj :=
  match kvs with
  | [] => []
  | (k', v) :: rest => if k' = k then removeKey rest k else (k', v) :: removeKey rest k

/-! ### Placeholder scanning

Modelled from the spec: strings are scanned for `\x7b\x7b ... \x7d\x7d`
spans; whitespace around the inner expression is insignificant; a span
that is never closed is kept as literal text. -/

/-- One piece of a scanned string: literal text or a placeholder
expression. -/
inductive Segment where
  | lit (s : String)
  | ph (e : String)
deriving Repr, BEq, DecidableEq

/-- Whitespace as used for trimming placeholder expressions. -/
def isWsChar (c : Char) : Bool :=
  c = ' ' ∨ c = '\t' ∨ c = '\n' ∨ c = '\r'

/-- Drop leading and trailing whitespace from a character list. -/
def trimChars (cs : List Char) : List Char :=
  ((cs.dropWhile isWsChar).reverse.dropWhile isWsChar).reverse

/-- Emit the pending literal accumulator (held in reverse order) as a
segment list; an empty accumulator produces no segment. -/
def emitLit (acc : List Char) : List Segment :=
  if acc.isEmpty then [] else [Segment.lit (String.mk acc.reverse)]

/-- Modelled from the spec: the placeholder scanner.  `acc` is the
pending literal run (reversed); `pacc` is `some` of the pending
placeholder body (reversed) once an opening `\x7b\x7b` has been seen.
An unclosed placeholder degrades to literal text. -/
def scanAux (acc : List Char) (pacc : Option (List Char)) : List Char → List Segment
  | [] =>
      match pacc with
      | none => emitLit acc
      | some p => emitLit (p ++ '\x7b' :: '\x7b' :: acc)
  | '\x7b' :: '\x7b' :: rest =>
      match pacc with
      | none => scanAux acc (some []) rest
      | some p => scanAux acc (some ('\x7b' :: '\x7b' :: p)) rest
  | '\x7d' :: '\x7d' :: rest =>
      match pacc with
      | none => scanAux ('\x7d' :: '\x7d' :: acc) none rest
      | some p =>
          emitLit acc ++ Segment.ph (String.mk (trimChars p.reverse)) :: scanAux [] none rest
  | c :: rest =>
      match pacc with
      | none => scanAux (c :: acc) none rest
      | some p => scanAux acc (some (c :: p)) rest

/-- Scan a string into literal and placeholder segments. -/
def scanString (s : String) : List Segment :=
  scanAux [] none s.data

/-! ### Expression resolution -/

/-- Split a character list at every `'.'`, keeping empty components. -/
def splitDots (acc : List Char) : List Char → List String
  | [] => [String.mk acc.reverse]
  | '.' :: rest => String.mk acc.reverse :: splitDots [] rest
  | c :: rest => splitDots (c :: acc) rest

/-- Walk a dotted path through nested mappings. -/
def getPath : JValue → List String → Option JValue
  | v, [] => some v
  | JValue.obj kvs, k :: rest =>
      match lookupA kvs k with
      | some v => getPath v rest
      | none => none
  | _, _ :: _ => none

/-- A placeholder expression that cannot be resolved. -/
inductive ResolutionError where
  | unresolved (e : String)
deriving Repr, BEq, DecidableEq

/-- Modelled from the spec: the Reference Store Client, a read-only
accessor for externally stored secret/credential documents
(`store.blocks.<type>.<name>`) and named variables
(`store.variables.<name>`). -/
structure StoreClient where
  blocks : String → String → Option JValue
  vars : String → Option JValue

/-- The resolution context: the OutputContext (flat view), the
Environment Provider and the Reference Store Client. -/
structure Ctx where
  outputs : Obj
  env : String → Option String
  store : StoreClient

/-- Modelled from the spec: resolve one placeholder expression, trying
the namespaces in order: store blocks, store variables, environment
variables (`$NAME`, degrading to the literal text when unset), and
finally step outputs (`<step_id>.<field>` or a bare `<field>`, looked up
in the OutputContext with the flattened root view serving bare
references).  Anything else fails with a `ResolutionError` naming the
expression. -/
def resolveExpr (ctx : Ctx) (e : String) : Except ResolutionError JValue :=
  match splitDots [] e.data with
  | ["store", "blocks", btype, bname] =>
      match ctx.store.blocks btype bname with
      | some v => Except.ok v
      | none => Except.error (ResolutionError.unresolved e)
  | ["store", "variables", vname] =>
      match ctx.store.vars vname with
      | some v => Except.ok v
      | none => Except.error (ResolutionError.unresolved e)
  | parts =>
      match e.data with
      | '$' :: nameChars =>
          match ctx.env (String.mk nameChars) with
          | some v => Except.ok (JValue.str v)
          | none => Except.ok (JValue.str e)
      | _ =>
          match getPath (JValue.obj ctx.outputs) parts with
          | some v => Except.ok v
          | none => Except.error (ResolutionError.unresolved e)

/-! ### Stringification and value resolution -/

mutual
/-- Modelled from the spec: stringification of a resolved value when it
is concatenated into surrounding literal text (Python `str`). -/
def render : JValue → String
  | JValue.null => "None"
  | JValue.bool b => if b then "True" else "False"
  | JValue.int n => toString n
  | JValue.str s => s
  | JValue.list xs => "[" ++ renderItems xs ++ "]"
  | JValue.obj kvs => "\x7b" ++ renderPairs kvs ++ "\x7d"

/-- Render list elements separated by `, `. -/
def renderItems : List JValue → String
  | [] => ""
  | [x] => render x
  | x :: y :: rest => render x ++ ", " ++ renderItems (y :: rest)

/-- Render mapping entries separated by `, `. -/
def renderPairs : List (String × JValue) → String
  | [] => ""
  | [(k, v)] => k ++ ": " ++ render v
  | (k, v) :: p :: rest => k ++ ": " ++ render v ++ ", " ++ renderPairs (p :: rest)
end

/-- Resolve one scanned segment to the text it contributes to a
concatenated string. -/
def renderSeg (ctx : Ctx) : Segment → Except ResolutionError String
  | Segment.lit t => Except.ok t
  | Segment.ph e => (resolveExpr ctx e).map render

/-- Modelled from the spec: resolve a single string.  If its entire
content is exactly one placeholder the resolved value replaces the
string in its native type; otherwise every placeholder is stringified
and concatenated with the literal text in order. -/
def resolveString (ctx : Ctx) (s : String) : Except ResolutionError JValue :=
  match scanString s with
  | [Segment.ph e] => resolveExpr ctx e
  | segs => (segs.mapM (renderSeg ctx)).map (fun parts => JValue.str (String.join parts))

mutual
/-- Modelled from the spec: resolve an arbitrary nested value: recurse
into mappings (keys unchanged) and sequences (order preserved), scan
strings, and pass every other scalar through unchanged. -/
def resolveValue (ctx : Ctx) : JValue → Except ResolutionError JValue
  | JValue.str s => resolveString ctx s
  | JValue.list xs => (resolveList ctx xs).map JValue.list
  | JValue.obj kvs => (resolveObj ctx kvs).map JValue.obj
  | v => Except.ok v

/-- Resolve each element of a sequence, in order. -/
def resolveList (ctx : Ctx) : List JValue → Except ResolutionError (List JValue)
  | [] => Except.ok []
  | x :: rest => do
      let x' ← resolveValue ctx x
      let rest' ← resolveList ctx rest
      Except.ok (x' :: rest')

/-- Resolve each value of a mapping, keys unchanged. -/
def resolveObj (ctx : Ctx) : List (String × JValue) → Except ResolutionError (List (String × JValue))
  | [] => Except.ok []
  | (k, v) :: rest => do
      let v' ← resolveValue ctx v
      let rest' ← resolveObj ctx rest
      Except.ok ((k, v') :: rest')
end

/-- Does a segment denote a placeholder span? -/
def isPhSeg : Segment → Bool
  | Segment.ph _ => true
  | Segment.lit _ => false

/-- The text a segment contributes verbatim (placeholders contribute
their span only through resolution, so they are ignored here). -/
def segText : Segment → String
  | Segment.lit t => t
  | Segment.ph _ => ""

/-- Concatenate the literal text of a segment list. -/
def joinLits : List Segment → String
  | [] => ""
  | seg :: rest => segText seg ++ joinLits rest

mutual
/-- The value contains no placeholder span in any of its strings. -/
def noPh : JValue → Bool
  | JValue.str s => (scanString s).all (fun seg => !isPhSeg seg)
  | JValue.list xs => noPhList xs
  | JValue.obj kvs => noPhObj kvs
  | _ => true

/-- `noPh` for every element of a sequence. -/
def noPhList : List JValue → Bool
  | [] => true
  | x :: rest => noPh x && noPhList rest

/-- `noPh` for every value of a mapping. -/
def noPhObj : List (String × JValue) → Bool
  | [] => true
  | (_, v) :: rest => noPh v && noPhObj rest
end

/-! ### Step invoker and pipeline runner

Modelled from the spec: `run_step` validates the StepSpec shape,
resolves the parameters, strips the reserved `id` parameter, resolves
the qualified name through the deprecated-alias table and the external
symbol registry, and invokes the callable; `run_steps` drives the
ordered list, printing a progress line per step, merging successful
results into the OutputContext and wrapping any failure in a
`StepExecutionError` that carries the step's qualified name. -/

/-- Errors of the engine.  `stepExecutionError` is the pipeline runner's
wrapper and carries the offending step's qualified name. -/
inductive StepError where
  | formatError (msg : String)
  | resolutionError (e : ResolutionError)
  | invocationError (msg : String)
  | stepExecutionError (stepName : String) (cause : String)
deriving Repr, BEq, DecidableEq

/-- Modelled from the spec: a step operation.  Given its resolved
parameter mapping it either raises (message) or returns a result
together with the non-fatal warnings surfaced during its execution. -/
structure StepFunc where
  run : Obj → Except String (JValue × List String)

/-- Modelled from the spec: the external symbol registry mapping a
qualified step name to a callable, together with the deprecated-alias
table (legacy qualified name → current qualified name) that the invoker
consults before the registry lookup. -/
structure Registry where
  lookup : String → Option StepFunc
  aliases : List (String × String)

/-- First match in the alias table. -/
def aliasLookup (al : List (String × String)) (k : String) : Option String :=
  match al with
  | [] => none
  | (k', v) :: rest => if k' = k then some v else aliasLookup rest k

/-- One call made to the injected print sink: a message and an optional
style tag. -/
structure PrintEvent where
  msg : String
  style : Option String
deriving Repr, BEq, DecidableEq

/-- Modelled from the spec: the injected print sink; it always accepts a
plain message and may raise when handed the `style` keyword. -/
structure Sink where
  acceptsStyle : Bool

/-- Modelled from the spec: forward one warning message to the sink with
a style tag; if the sink raises on the styled call, retry the same
message without styling instead of failing.  Returns the sequence of
calls made to the sink. -/
def printWarning (sink : Sink) (m : String) : List PrintEvent :=
  if sink.acceptsStyle then [⟨m, some "yellow"⟩] else [⟨m, some "yellow"⟩, ⟨m, none⟩]

/-- The deprecation diagnostic emitted when a legacy qualified name is
used. -/
def deprecationMsg (oldName newName : String) : String :=
  oldName ++ " is deprecated. Use " ++ newName ++ " instead."

/-- The message a step entry with the wrong key cardinality is rejected
with. -/
def formatMsg : String :=
  "Encountered unexpected step format; a step must have exactly one top-level key"

/-- The declared `id` of a step, read from its resolved parameters. -/
def declaredId (ps : Obj) : Option String :=
  match lookupA ps "id" with
  | some (JValue.str i) => some i
  | _ => none

/-- The invocation half of `run_step`: look the (alias-resolved)
qualified name up in the registry, invoke the callable on the resolved
parameters stripped of `id`, and emit `aliasEvents` (the deprecation
diagnostic, when one applies) before the captured warnings. -/
def runInvoke (reg : Registry) (sink : Sink) (rparams : Obj) (actualName : String)
    (aliasEvents : List PrintEvent) :
    Except StepError (Option String × JValue × List PrintEvent) :=
  match reg.lookup actualName with
  | none => Except.error (StepError.invocationError ("No module named " ++ actualName))
  | some f =>
      match f.run (removeKey rparams "id") with
      | Except.error m => Except.error (StepError.invocationError m)
      | Except.ok (result, warns) =>
          Except.ok (declaredId rparams, result,
            aliasEvents ++ warns.flatMap (printWarning sink))

/-- Modelled from the spec: the single-step primitive.  Validates that
the StepSpec has exactly one top-level key (before any resolution),
resolves the parameters against the context, strips the reserved `id`,
resolves deprecated aliases (emitting a deprecation diagnostic before
invoking), looks the qualified name up in the registry and invokes the
callable, forwarding captured warnings to the sink after the step
completes.  Returns the declared id, the step result and the calls made
to the sink. -/
def runStepCore (reg : Registry) (sink : Sink) (ctx : Ctx) (spec : Obj) :
    Except StepError (Option String × JValue × List PrintEvent) :=
  match spec with
  | [(name, JValue.obj params)] =>
      match resolveObj ctx params with
      | Except.error e => Except.error (StepError.resolutionError e)
      | Except.ok rparams =>
          match aliasLookup reg.aliases name with
          | some current =>
              runInvoke reg sink rparams current
                (printWarning sink (deprecationMsg name current))
          | none => runInvoke reg sink rparams name []
  | _ => Except.error (StepError.formatError formatMsg)

/-- Modelled from the spec: the standalone `run_step` entry point;
identical logic for exactly one StepSpec, returning the step result. -/
def runStep (reg : Registry) (sink : Sink) (ctx : Ctx) (spec : Obj) :
    Except StepError (JValue × List PrintEvent) :=
  (runStepCore reg sink ctx spec).map (fun r => (r.2.1, r.2.2))

/-- Modelled from the spec: merge a successful step's result into the
OutputContext.  The result's top-level keys overwrite the flattened root
view (last write wins); if the step declared an `id`, the full result is
additionally stored under that id. -/
def mergeOutputs (outputs : Obj) (sid : Option String) (result : JValue) : Obj :=
  let root :=
    match result with
    | JValue.obj kvs => kvs.foldl (fun o kv => upsertA o kv.1 kv.2) outputs
    | _ => outputs
  match sid with
  | some i => upsertA root i result
  | none => root

/-- The qualified name of a step entry (its first top-level key). -/
def qualifiedName (spec : Obj) : String :=
  match spec with
  | (n, _) :: _ => n
  | [] => ""

/-- The short name printed in the progress line: the last dotted
component of the qualified name. -/
def shortName (n : String) : String :=
  match (splitDots [] n.data).getLast? with
  | some s => s
  | none => n

/-- Render an engine error as text, for wrapping into a
`StepExecutionError` message. -/
def describeError : StepError → String
  | StepError.formatError m => m
  | StepError.resolutionError (ResolutionError.unresolved e) =>
      "could not resolve " ++ e
  | StepError.invocationError m => m
  | StepError.stepExecutionError n c => "error while running " ++ n ++ ": " ++ c

/-- The user-visible message of an engine error. -/
def errorMessage : StepError → String
  | StepError.stepExecutionError n c =>
      "Encountered error while running " ++ n ++ ": " ++ c
  | e => describeError e

/-- Modelled from the spec: the pipeline runner.  Runs the steps in
order against the accumulated OutputContext, printing a progress line
before each step, merging each success, and aborting on the first
failure with a `StepExecutionError` carrying the step's qualified name.
Returns the final OutputContext and the calls made to the sink. -/
def runSteps (reg : Registry) (sink : Sink) (env : String → Option String)
    (store : StoreClient) : List Obj → Obj → Except StepError (Obj × List PrintEvent)
  | [], outputs => Except.ok (outputs, [])
  | spec :: rest, outputs =>
      let name := qualifiedName spec
      let progress : PrintEvent := ⟨" > Running " ++ shortName name ++ " step...", none⟩
      match runStepCore reg sink ⟨outputs, env, store⟩ spec with
      | Except.error e =>
          Except.error (StepError.stepExecutionError name (describeError e))
      | Except.ok (sid, result, events) =>
          (runSteps reg sink env store rest (mergeOutputs outputs sid result)).map
            (fun r => (r.1, progress :: events ++ r.2))

/-! ### The JSON serializer (src/prefect/serializers.py)

`JSONSerializer.dumps` copies `dumps_kwargs`, installs the configured
`object_encoder` as the `default` hook, calls `json.dumps` and encodes
the resulting text as UTF-8 bytes; `loads` decodes the bytes, installs
the configured `object_decoder` as `object_hook` and calls `json.loads`.
The stdlib `json` module is external and is modelled here from its
documented default behaviour (separators `", "` and `": "`,
`ensure_ascii=True`, `object_hook` applied to every parsed object); for
inputs made only of `JValue` data the `default` hook is never invoked,
because every such value is natively supported by the encoder. -/

/-- Decimal digit character. -/
def digitChar (n : Nat) : Char := Char.ofNat (48 + n)

/-- Decimal digits of a natural number, most significant first; `fuel`
bounds the number of digits, any `fuel > n` is enough. -/
def natCharsAux (fuel n : Nat) : List Char :=
  match fuel with
  | 0 => []
  | fuel + 1 =>
      if n < 10 then [digitChar n] else natCharsAux fuel (n / 10) ++ [digitChar (n % 10)]

/-- Decimal digits of a natural number, most significant first. -/
def natChars (n : Nat) : List Char := natCharsAux (n + 1) n

/-- Decimal rendering of an integer, as Python `json.dumps` prints it. -/
def intChars (n : Int) : List Char :=
  if n < 0 then '-' :: natChars n.natAbs else natChars n.natAbs

/-- Lower-case hexadecimal digit character, as Python emits in `\u`
escapes. -/
def hexDigitChar (n : Nat) : Char :=
  if n < 10 then Char.ofNat (48 + n) else Char.ofNat (87 + n)

/-- Four-digit lower-case hexadecimal rendering (for `\uXXXX`). -/
def hex4 (n : Nat) : List Char :=
  [hexDigitChar (n / 4096 % 16), hexDigitChar (n / 256 % 16),
   hexDigitChar (n / 16 % 16), hexDigitChar (n % 16)]

/-- Modelled from the stdlib `json` encoder with `ensure_ascii=True`:
short escapes for the usual control characters, backslash and quote;
printable ASCII kept verbatim; everything else as `\uXXXX`, using a
surrogate pair above U+FFFF. -/
def escapeChar (c : Char) : List Char :=
  if c = '"' then ['\\', '"']
  else if c = '\\' then ['\\', '\\']
  else if c = '\n' then ['\\', 'n']
  else if c = '\t' then ['\\', 't']
  else if c = '\r' then ['\\', 'r']
  else if c.toNat = 8 then ['\\', 'b']
  else if c.toNat = 12 then ['\\', 'f']
  else if 32 ≤ c.toNat ∧ c.toNat ≤ 126 then [c]
  else if c.toNat < 65536 then '\\' :: 'u' :: hex4 c.toNat
  else
    ('\\' :: 'u' :: hex4 (55296 + (c.toNat - 65536) / 1024)) ++
    ('\\' :: 'u' :: hex4 (56320 + (c.toNat - 65536) % 1024))

/-- A JSON string literal: quote, escaped characters, quote. -/
def printJString (s : String) : List Char :=
  '"' :: s.data.flatMap escapeChar ++ ['"']

mutual
/-- Modelled from the stdlib `json` encoder with default separators:
the exact character stream `json.dumps` produces for a `JValue`. -/
def printJson : JValue → List Char
  | JValue.null => ['n', 'u', 'l', 'l']
  | JValue.bool true => ['t', 'r', 'u', 'e']
  | JValue.bool false => ['f', 'a', 'l', 's', 'e']
  | JValue.int n => intChars n
  | JValue.str s => printJString s
  | JValue.list xs => '[' :: printJsonItems xs ++ [']']
  | JValue.obj kvs => '\x7b' :: printJsonMembers kvs ++ ['\x7d']

/-- Array elements, separated by `", "`. -/
def printJsonItems : List JValue → List Char
  | [] => []
  | [x] => printJson x
  | x :: y :: rest => printJson x ++ ',' :: ' ' :: printJsonItems (y :: rest)

/-- Object members, `"key": value` separated by `", "`. -/
def printJsonMembers : List (String × JValue) → List Char
  | [] => []
  | [(k, v)] => printJString k ++ ':' :: ' ' :: printJson v
  | (k, v) :: p :: rest =>
      printJString k ++ ':' :: ' ' :: printJson v ++ ',' :: ' ' :: printJsonMembers (p :: rest)
end

/-- ASCII decimal digit test. -/
def isDigitC (c : Char) : Bool := 48 ≤ c.toNat ∧ c.toNat ≤ 57

/-- JSON whitespace. -/
def isJsonWs (c : Char) : Bool :=
  c = ' ' ∨ c = '\t' ∨ c = '\n' ∨ c = '\r'

/-- Skip JSON whitespace. -/
def skipWs (cs : List Char) : List Char := cs.dropWhile isJsonWs

/-- Value of one hexadecimal digit character. -/
def hexVal (c : Char) : Option Nat :=
  if 48 ≤ c.toNat ∧ c.toNat ≤ 57 then some (c.toNat - 48)
  else if 97 ≤ c.toNat ∧ c.toNat ≤ 102 then some (c.toNat - 87)
  else if 65 ≤ c.toNat ∧ c.toNat ≤ 70 then some (c.toNat - 55)
  else none

/-- Read four hexadecimal digits. -/
def parseHex4 : List Char → Option (Nat × List Char)
  | a :: b :: c :: d :: rest => do
      let va ← hexVal a
      let vb ← hexVal b
      let vc ← hexVal c
      let vd ← hexVal d
      some (va * 4096 + vb * 256 + vc * 16 + vd, rest)
  | _ => none

/-- Modelled from the stdlib `json` decoder: the body of a string
literal after the opening quote, up to and including the closing quote.
Surrogate-pair escapes are recombined; a lone surrogate escape is
rejected (the printer never produces one). -/
def parseJStringBody (fuel : Nat) (cs : List Char) : Option (List Char × List Char) :=
  match fuel with
  | 0 => none
  | fuel + 1 =>
      match cs with
      | [] => none
      | '"' :: rest => some ([], rest)
      | '\\' :: e :: rest =>
          if e = '"' then (parseJStringBody fuel rest).map (fun r => ('"' :: r.1, r.2))
          else if e = '\\' then (parseJStringBody fuel rest).map (fun r => ('\\' :: r.1, r.2))
          else if e = '/' then (parseJStringBody fuel rest).map (fun r => ('/' :: r.1, r.2))
          else if e = 'b' then
            (parseJStringBody fuel rest).map (fun r => (Char.ofNat 8 :: r.1, r.2))
          else if e = 'f' then
            (parseJStringBody fuel rest).map (fun r => (Char.ofNat 12 :: r.1, r.2))
          else if e = 'n' then (parseJStringBody fuel rest).map (fun r => ('\n' :: r.1, r.2))
          else if e = 'r' then (parseJStringBody fuel rest).map (fun r => ('\r' :: r.1, r.2))
          else if e = 't' then (parseJStringBody fuel rest).map (fun r => ('\t' :: r.1, r.2))
          else if e = 'u' then
            match parseHex4 rest with
            | none => none
            | some (hi, rest1) =>
                if 55296 ≤ hi ∧ hi < 56320 then
                  match rest1 with
                  | '\\' :: 'u' :: rest2 =>
                      match parseHex4 rest2 with
                      | none => none
                      | some (lo, rest3) =>
                          if 56320 ≤ lo ∧ lo < 57344 then
                            (parseJStringBody fuel rest3).map
                              (fun r =>
                                (Char.ofNat (65536 + (hi - 55296) * 1024 + (lo - 56320)) :: r.1,
                                  r.2))
                          else none
                  | _ => none
                else if 56320 ≤ hi ∧ hi < 57344 then none
                else (parseJStringBody fuel rest1).map (fun r => (Char.ofNat hi :: r.1, r.2))
          else none
      | c :: rest => (parseJStringBody fuel rest).map (fun r => (c :: r.1, r.2))

/-- Numeric value of a digit list. -/
def digitsToNat (ds : List Char) : Nat :=
  ds.foldl (fun a c => a * 10 + (c.toNat - 48)) 0

/-- Read an unsigned decimal number (one or more digits). -/
def parseNatNum (cs : List Char) : Option (Nat × List Char) :=
  match cs.takeWhile isDigitC with
  | [] => none
  | ds => some (digitsToNat ds, cs.dropWhile isDigitC)

/-- The input does not continue with a digit, so a number literal ending
right before it is read back unchanged. -/
def headNotDigit : List Char → Bool
  | [] => true
  | c :: _ => !isDigitC c

/-- A character that can open the printed form of a JSON value: never
whitespace and never one of the closing brackets, which is what the
parser's lookahead branches on. -/
def valHeadOk (c : Char) : Bool := !isJsonWs c && !(c = ']') && !(c = '\x7d')

mutual
/-- Modelled from the stdlib `json` decoder restricted to the grammar
the serializer needs (no floats): one JSON value, with `hook` applied to
every parsed object, as `json.loads` applies `object_hook`.  `fuel`
bounds the recursion depth; twice the input length always suffices,
since every fuel step follows the consumption of an input character. -/
def parseVal (hook : Obj → Option JValue) (fuel : Nat) (cs : List Char) :
    Option (JValue × List Char) :=
  match fuel with
  | 0 => none
  | fuel + 1 =>
      match cs with
      | 'n' :: 'u' :: 'l' :: 'l' :: rest => some (JValue.null, rest)
      | 't' :: 'r' :: 'u' :: 'e' :: rest => some (JValue.bool true, rest)
      | 'f' :: 'a' :: 'l' :: 's' :: 'e' :: rest => some (JValue.bool false, rest)
      | '"' :: rest =>
          (parseJStringBody fuel rest).map (fun r => (JValue.str (String.mk r.1), r.2))
      | '-' :: rest =>
          (parseNatNum rest).map (fun r => (JValue.int (-(r.1 : Int)), r.2))
      | '[' :: rest =>
          match skipWs rest with
          | ']' :: rest' => some (JValue.list [], rest')
          | rest' => (parseItems hook fuel rest').map (fun r => (JValue.list r.1, r.2))
      | '\x7b' :: rest =>
          match skipWs rest with
          | '\x7d' :: rest' => (hook []).map (fun v => (v, rest'))
          | rest' => do
              let (kvs, rest'') ← parseMembers hook fuel rest'
              let v ← hook kvs
              some (v, rest'')
      | c :: _ =>
          if isDigitC c then (parseNatNum cs).map (fun r => (JValue.int (r.1 : Int), r.2))
          else none
      | [] => none

/-- One or more array elements, consuming the closing `']'`. -/
def parseItems (hook : Obj → Option JValue) (fuel : Nat) (cs : List Char) :
    Option (List JValue × List Char) :=
  match fuel with
  | 0 => none
  | fuel + 1 => do
      let (v, rest) ← parseVal hook fuel cs
      match skipWs rest with
      | ',' :: rest' => (parseItems hook fuel (skipWs rest')).map (fun r => (v :: r.1, r.2))
      | ']' :: rest' => some ([v], rest')
      | _ => none

/-- One or more object members, consuming the closing brace. -/
def parseMembers (hook : Obj → Option JValue) (fuel : Nat) (cs : List Char) :
    Option (List (String × JValue) × List Char) :=
  match fuel with
  | 0 => none
  | fuel + 1 =>
      match cs with
      | '"' :: cs' => do
          let (kchars, rest) ← parseJStringBody fuel cs'
          match skipWs rest with
          | ':' :: rest' => do
              let (v, rest'') ← parseVal hook fuel (skipWs rest')
              match skipWs rest'' with
              | ',' :: rest3 =>
                  (parseMembers hook fuel (skipWs rest3)).map
                    (fun r => ((String.mk kchars, v) :: r.1, r.2))
              | '\x7d' :: rest3 => some ([(String.mk kchars, v)], rest3)
              | _ => none
          | _ => none
      | _ => none
end

/-- UTF-8 encoding of one character (Python `str.encode`). -/
def utf8EncodeChar (c : Char) : List Nat :=
  let v := c.toNat
  if v < 128 then [v]
  else if v < 2048 then [192 + v / 64, 128 + v % 64]
  else if v < 65536 then [224 + v / 4096, 128 + v / 64 % 64, 128 + v % 64]
  else [240 + v / 262144, 128 + v / 4096 % 64, 128 + v / 64 % 64, 128 + v % 64]

/-- UTF-8 encoding of a string as a byte list. -/
def utf8Encode (s : String) : List Nat := s.data.flatMap utf8EncodeChar

/-- A UTF-8 continuation byte. -/
def utf8Cont (b : Nat) : Bool := 128 ≤ b ∧ b < 192

mutual
/-- UTF-8 decoding (Python `bytes.decode`), rejecting malformed input. -/
def utf8Decode : List Nat → Option (List Char)
  | [] => some []
  | b :: rest =>
      if b < 128 then (utf8Decode rest).map (Char.ofNat b :: ·)
      else if 194 ≤ b ∧ b < 224 then utf8Dec2 b rest
      else if 224 ≤ b ∧ b < 240 then utf8Dec3 b rest
      else if 240 ≤ b ∧ b < 248 then utf8Dec4 b rest
      else none

/-- Decode the continuation of a two-byte sequence. -/
def utf8Dec2 (b : Nat) : List Nat → Option (List Char)
  | b2 :: rest =>
      if utf8Cont b2 then
        (utf8Decode rest).map (Char.ofNat ((b - 192) * 64 + (b2 - 128)) :: ·)
      else none
  | [] => none

/-- Decode the continuation of a three-byte sequence. -/
def utf8Dec3 (b : Nat) : List Nat → Option (List Char)
  | b2 :: b3 :: rest =>
      if utf8Cont b2 ∧ utf8Cont b3 then
        (utf8Decode rest).map
          (Char.ofNat ((b - 224) * 4096 + (b2 - 128) * 64 + (b3 - 128)) :: ·)
      else none
  | _ => none

/-- Decode the continuation of a four-byte sequence. -/
def utf8Dec4 (b : Nat) : List Nat → Option (List Char)
  | b2 :: b3 :: b4 :: rest =>
      if utf8Cont b2 ∧ utf8Cont b3 ∧ utf8Cont b4 then
        (utf8Decode rest).map
          (Char.ofNat ((b - 240) * 262144 + (b2 - 128) * 4096 + (b3 - 128) * 64 + (b4 - 128)) :: ·)
      else none
  | _ => none
end

/-- `prefect_json_object_decoder` (serializers.py lines 38-47): the
`object_hook` installed by `JSONSerializer.loads`.  A parsed object
containing the key `"__class__"` is rebuilt through the import machinery
(`pydantic.parse_obj_as(from_qualified_name(result["__class__"]),
result["data"])`, evaluated in that order); any other object is returned
unchanged.  The external import machinery and pydantic are abstracted as
`resolveClass` and `parseObjAs`; a failure of either, or a missing
`"data"` key (Python `KeyError`), or a non-string `"__class__"` value
(Python raises inside `from_qualified_name`) makes `loads` raise. -/
def prefect_json_object_decoder {α : Type} (resolveClass : String → Option α)
    (parseObjAs : α → JValue → Option JValue) (result : Obj) : Option JValue :=
  match lookupA result "__class__" with
  | some (JValue.str c) => do
      let cls ← resolveClass c
      let d ← lookupA result "data"
      parseObjAs cls d
  | some _ => none
  | none => some (JValue.obj result)

/-- `JSONSerializer.dumps` with default settings (serializers.py lines
198-207): encode with the stdlib `json` encoder and return the text as
UTF-8 bytes.  For `JValue` inputs the configured `object_encoder`
(`default` hook) is never consulted, since every such value is natively
JSON-encodable. -/
def JSONSerializer_dumps (data : JValue) : List Nat :=
  utf8Encode (String.mk (printJson data))

/-- `JSONSerializer.loads` with default settings (serializers.py lines
209-214): decode the UTF-8 bytes and parse them with the stdlib `json`
decoder, installing `prefect_json_object_decoder` as `object_hook`.  The
whole input must be consumed (Python `json.loads` raises otherwise). -/
def JSONSerializer_loads {α : Type} (resolveClass : String → Option α)
    (parseObjAs : α → JValue → Option JValue) (blob : List Nat) : Option JValue :=
  match utf8Decode blob with
  | none => none
  | some chars =>
      match parseVal (prefect_json_object_decoder resolveClass parseObjAs)
          (2 * chars.length + 2) (skipWs chars) with
      | some (v, rest) => if skipWs rest = [] then some v else none
      | none => none

mutual
/-- No mapping anywhere inside the value binds the reserved key
`"__class__"` (the encoding-scheme marker of
`prefect_json_object_encoder`). -/
def noClassKey : JValue → Bool
  | JValue.list xs => noClassKeyList xs
  | JValue.obj kvs => (lookupA kvs "__class__").isNone && noClassKeyObj kvs
  | _ => true

/-- `noClassKey` for every element. -/
def noClassKeyList : List JValue → Bool
  | [] => true
  | x :: rest => noClassKey x && noClassKeyList rest

/-- `noClassKey` for every value of a mapping. -/
def noClassKeyObj : List (String × JValue) → Bool
  | [] => true
  | (_, v) :: rest => noClassKey v && noClassKeyObj rest
end

/-- The constructed serializer's validated kwargs fields (serializers.py
lines 175-176). -/
structure JSONSerializerModel where
  dumps_kwargs : Obj
  loads_kwargs : Obj
deriving Repr, BEq

/-- `JSONSerializer.dumps_kwargs_cannot_contain_default` (serializers.py
lines 178-186): reject any `dumps_kwargs` containing the reserved key
`"default"`, accept everything else unchanged. -/
def dumps_kwargs_validator (value : Obj) : Except String Obj :=
  if (lookupA value "default").isSome then
    Except.error "`default` cannot be provided. Use `object_encoder` instead."
  else Except.ok value

/-- `JSONSerializer.loads_kwargs_cannot_contain_object_hook`
(serializers.py lines 188-196): reject any `loads_kwargs` containing the
reserved key `"object_hook"`, accept everything else unchanged. -/
def loads_kwargs_validator (value : Obj) : Except String Obj :=
  if (lookupA value "object_hook").isSome then
    Except.error "`object_hook` cannot be provided. Use `object_decoder` instead."
  else Except.ok value

/-- Constructing a `JSONSerializer`: pydantic runs the two field
validators; a raised `ValueError` aborts construction. -/
def mkJSONSerializer (dk lk : Obj) : Except String JSONSerializerModel := do
  let dk' ← dumps_kwargs_validator dk
  let lk' ← loads_kwargs_validator lk
  Except.ok ⟨dk', lk'⟩

/-! ### Helper predicates and concrete fixtures used by the theorems -/

/-- The keys of an association list. -/
def keysOf (l : Obj) : List String := l.map Prod.fst

/-- Characters that may appear in literal text without affecting the
scanner state: anything except the two brace characters. -/
def plainChar (c : Char) : Bool := c ≠ '\x7b' ∧ c ≠ '\x7d'

/-- Wrap an expression in a placeholder span, `\x7b\x7b e \x7d\x7d`. -/
def phWrap (e : String) : String := "\x7b\x7b " ++ e ++ " \x7d\x7d"

/-- Literal text that contains no brace characters. -/
def litOk (s : String) : Bool := s.data.all plainChar

/-- A well-formed placeholder expression: nonempty, no braces, no
whitespace. -/
def exprOk (e : String) : Bool :=
  !e.isEmpty && e.data.all (fun c => plainChar c && !isWsChar c)

/-- A well-formed step id or field name: nonempty, no braces, no
whitespace, no dot, not starting the environment-variable namespace. -/
def nameOk (s : String) : Bool :=
  !s.isEmpty && s.data.all (fun c => plainChar c && !isWsChar c && c ≠ '.' && c ≠ '$')

/-- `sub` occurs inside `s`. -/
def containsSub (s sub : String) : Prop := ∃ a b, s = a ++ sub ++ b

/-- A concrete Reference Store Client, mirroring the blocks and
variables used by the test suite. -/
def egStore : StoreClient where
  blocks := fun btype bname =>
    if btype = "mockgitcredentials" ∧ bname = "my-credentials" then
      some (JValue.obj [("username", JValue.str "marvin42"), ("password", JValue.str "hunter2")])
    else if btype = "secret" ∧ bname = "test-secret" then
      some (JValue.str "I am a secret!")
    else none
  vars := fun n =>
    if n = "test_variable_1" then some (JValue.str "test_value_1")
    else if n = "test_variable_2" then some (JValue.str "test_value_2")
    else none

/-- A concrete Environment Provider with one variable set. -/
def egEnv : String → Option String :=
  fun n => if n = "TEST_ENV_VAR" then some "test_value" else none

/-- A concrete resolution context, as it stands after the first test
step has run. -/
def egCtx : Ctx where
  outputs :=
    [("why_not_to_panic",
        JValue.obj [("stdout", JValue.str "this is a test"), ("stderr", JValue.str "")]),
      ("stdout", JValue.str "this is a test"), ("stderr", JValue.str "")]
  env := egEnv
  store := egStore

/-- The step function used by the concrete registry: an abstract
`run_shell_script` that echoes its `script` parameter. -/
def shellEchoRun (ps : Obj) : Except String (JValue × List String) :=
  match lookupA ps "script" with
  | some (JValue.str s) =>
      Except.ok (JValue.obj [("stdout", JValue.str s), ("stderr", JValue.str "")], [])
  | _ => Except.error "run_shell_script: missing script"

/-- A step function raising a deprecation warning, as monkeypatched in
the warning tests. -/
def warnEchoRun (ps : Obj) : Except String (JValue × List String) :=
  match lookupA ps "script" with
  | some (JValue.str _) => Except.ok (JValue.obj [], ["this is a warning"])
  | _ => Except.error "run_shell_script: missing script"

/-- A concrete registry with the shell step, a warning step and one
deprecated alias. -/
def egReg : Registry where
  lookup := fun n =>
    if n = "prefect.deployments.steps.run_shell_script" then some ⟨shellEchoRun⟩
    else if n = "tests.warning_step" then some ⟨warnEchoRun⟩
    else none
  aliases :=
    [("prefect.projects.steps.run_shell_script", "prefect.deployments.steps.run_shell_script")]

/-! ## Lemmas: association lists -/

theorem lookupA_upsertA_self (l : Obj) (k : String) (v : JValue) :
    lookupA (upsertA l k v) k = some v := by
  induction l with
  | nil => simp [upsertA, lookupA]
  | cons kv rest ih =>
      obtain ⟨k', v'⟩ := kv
      by_cases h : k' = k
      · simp [upsertA, h, lookupA]
      · simp [upsertA, h, lookupA, ih]

theorem lookupA_upsertA_ne (l : Obj) (k k' : String) (v : JValue) (h : k' ≠ k) :
    lookupA (upsertA l k v) k' = lookupA l k' := by
  have hk : k ≠ k' := fun hh => h hh.symm
  induction l with
  | nil => simp [upsertA, lookupA, if_neg hk]
  | cons kv rest ih =>
      obtain ⟨k0, v0⟩ := kv
      by_cases h0 : k0 = k
      · subst h0
        simp [upsertA, lookupA, if_neg hk]
      · simp only [upsertA, if_neg h0, lookupA]
        by_cases h1 : k0 = k'
        · simp [h1]
        · simp [h1, ih]

theorem lookupA_foldl_upsert_notMem (kvs : Obj) (o : Obj) (k : String)
    (h : k ∉ keysOf kvs) :
    lookupA (kvs.foldl (fun acc kv => upsertA acc kv.1 kv.2) o) k = lookupA o k := by
  induction kvs generalizing o with
  | nil => simp [List.foldl]
  | cons kv rest ih =>
      obtain ⟨k0, v0⟩ := kv
      simp only [keysOf, List.map, List.mem_cons, not_or] at h
      simp only [List.foldl]
      rw [ih _ (by simpa [keysOf] using h.2)]
      exact lookupA_upsertA_ne o k0 k v0 h.1

theorem lookupA_foldl_upsert_mem (kvs : Obj) (o : Obj) (k : String) (v : JValue)
    (hnd : (keysOf kvs).Nodup) (h : lookupA kvs k = some v) :
    lookupA (kvs.foldl (fun acc kv => upsertA acc kv.1 kv.2) o) k = some v := by
  induction kvs generalizing o with
  | nil => simp [lookupA] at h
  | cons kv rest ih =>
      obtain ⟨k0, v0⟩ := kv
      simp only [keysOf, List.map_cons, List.nodup_cons] at hnd
      simp only [lookupA] at h
      by_cases h0 : k0 = k
      · subst h0
        simp only [if_pos rfl] at h
        cases h
        simp only [List.foldl]
        rw [lookupA_foldl_upsert_notMem rest _ k0 (by simpa [keysOf] using hnd.1)]
        exact lookupA_upsertA_self o k0 v
      · rw [if_neg h0] at h
        simp only [List.foldl]
        exact ih _ (by simpa [keysOf] using hnd.2) h

theorem lookupA_eq_none_iff (kvs : Obj) (k : String) :
    lookupA kvs k = none ↔ k ∉ keysOf kvs := by
  induction kvs with
  | nil => simp [lookupA, keysOf]
  | cons kv rest ih =>
      obtain ⟨k0, v0⟩ := kv
      by_cases h : k0 = k
      · subst h
        simp [lookupA, keysOf]
      · simp only [lookupA, if_neg h, keysOf, List.map_cons, List.mem_cons, not_or]
        rw [ih]
        simp only [keysOf]
        constructor
        · intro hnot; exact ⟨fun hh => h hh.symm, hnot⟩
        · intro hpair; exact hpair.2

/-! ## Lemmas: the placeholder scanner -/

theorem scanAux_nil_lit (acc : List Char) :
    scanAux acc none [] = emitLit acc := rfl

theorem scanAux_open (acc : List Char) (cs : List Char) :
    scanAux acc none ('\x7b' :: '\x7b' :: cs) = scanAux acc (some []) cs := rfl

theorem scanAux_close (acc p : List Char) (cs : List Char) :
    scanAux acc (some p) ('\x7d' :: '\x7d' :: cs) =
      emitLit acc ++ Segment.ph (String.mk (trimChars p.reverse)) :: scanAux [] none cs := rfl

theorem scanAux_lit_cons (acc : List Char) (c : Char) (ds : List Char)
    (h1 : c ≠ '\x7b') (h2 : c ≠ '\x7d') :
    scanAux acc none (c :: ds) = scanAux (c :: acc) none ds := by
  rw [scanAux.eq_def]
  split
  · rename_i heq; exact absurd heq (List.cons_ne_nil c ds)
  · rename_i rest heq; injection heq with hc _; exact absurd hc h1
  · rename_i rest heq; injection heq with hc _; exact absurd hc h2
  · rename_i c' rest heq; injection heq with hc hrest; subst hc; subst hrest; rfl

theorem scanAux_ph_cons (acc p : List Char) (c : Char) (ds : List Char)
    (h1 : c ≠ '\x7b') (h2 : c ≠ '\x7d') :
    scanAux acc (some p) (c :: ds) = scanAux acc (some (c :: p)) ds := by
  rw [scanAux.eq_def]
  split
  · rename_i heq; exact absurd heq (List.cons_ne_nil c ds)
  · rename_i rest heq; injection heq with hc _; exact absurd hc h1
  · rename_i rest heq; injection heq with hc _; exact absurd hc h2
  · rename_i c' rest heq; injection heq with hc hrest; subst hc; subst hrest; rfl

theorem scanAux_lit_append (pre : List Char) (acc cs : List Char)
    (h : ∀ c ∈ pre, plainChar c) :
    scanAux acc none (pre ++ cs) = scanAux (pre.reverse ++ acc) none cs := by
  induction pre generalizing acc with
  | nil => simp
  | cons c pre' ih =>
      have hc := h c (by simp)
      simp only [plainChar, decide_eq_true_eq] at hc
      rw [List.cons_append, scanAux_lit_cons _ _ _ hc.1 hc.2, ih _ (fun d hd => h d (by simp [hd]))]
      simp

theorem scanAux_ph_append (mid : List Char) (acc p cs : List Char)
    (h : ∀ c ∈ mid, plainChar c) :
    scanAux acc (some p) (mid ++ cs) = scanAux acc (some (mid.reverse ++ p)) cs := by
  induction mid generalizing p with
  | nil => simp
  | cons c mid' ih =>
      have hc := h c (by simp)
      simp only [plainChar, decide_eq_true_eq] at hc
      rw [List.cons_append, scanAux_ph_cons _ _ _ _ hc.1 hc.2, ih _ (fun d hd => h d (by simp [hd]))]
      simp

theorem trimChars_pad (e : List Char) (he : e ≠ [])
    (h : ∀ c ∈ e, isWsChar c = false) : trimChars (' ' :: e ++ [' ']) = e := by
  unfold trimChars
  have h1 : List.dropWhile isWsChar (' ' :: e ++ [' ']) = e ++ [' '] := by
    rw [List.cons_append, List.dropWhile_cons, if_pos (by decide)]
    cases e with
    | nil => exact absurd rfl he
    | cons c e' =>
        rw [List.cons_append, List.dropWhile_cons, if_neg (by simp [h c (by simp)])]
  rw [h1]
  have h2 : (e ++ [' ']).reverse = ' ' :: e.reverse := by simp
  rw [h2, List.dropWhile_cons, if_pos (by decide)]
  have h3 : List.dropWhile isWsChar e.reverse = e.reverse := by
    cases hrev : e.reverse with
    | nil => simp
    | cons c rev' =>
        rw [List.dropWhile_cons, if_neg]
        have hce : c ∈ e := by
          have : c ∈ e.reverse := by rw [hrev]; simp
          simpa using this
        simp [h c hce]
  rw [h3, List.reverse_reverse]

theorem scanString_lit (s : String) (h : litOk s) :
    scanString s = emitLit s.data.reverse := by
  unfold scanString
  have := scanAux_lit_append s.data [] [] (by simpa [litOk, List.all_eq_true] using h)
  simpa using this

theorem scanString_decompose (pre e post : String) (hpre : litOk pre) (he : exprOk e) :
    scanString (pre ++ phWrap e ++ post) =
      emitLit pre.data.reverse ++ Segment.ph e :: scanString post := by
  have hdata : (pre ++ phWrap e ++ post).data =
      pre.data ++ '\x7b' :: '\x7b' :: ((' ' :: e.data ++ [' ']) ++ ('\x7d' :: '\x7d' :: post.data)) := by
    show pre.data ++ (phWrap e).data ++ post.data = _
    simp [phWrap]
  unfold scanString
  rw [hdata]
  rw [scanAux_lit_append pre.data [] _ (by simpa [litOk, List.all_eq_true] using hpre)]
  rw [List.append_nil, scanAux_open]
  have heprops : ∀ c ∈ e.data, plainChar c = true ∧ isWsChar c = false := by
    simp only [exprOk, Bool.and_eq_true, List.all_eq_true] at he
    intro c hc
    have := he.2 c hc
    simp only [Bool.and_eq_true, Bool.not_eq_true'] at this
    exact this
  rw [scanAux_ph_append _ _ _ _ (by
    intro c hc
    simp only [List.mem_append, List.mem_cons, List.mem_singleton, List.not_mem_nil,
      or_false] at hc
    rcases hc with (rfl | hc) | rfl
    · decide
    · exact (heprops c hc).1
    · decide)]
  rw [List.append_nil, scanAux_close]
  congr 2
  have hrev : (' ' :: e.data ++ [' ']).reverse.reverse = ' ' :: e.data ++ [' '] := by simp
  rw [hrev]
  have hne : e.data ≠ [] := by
    simp only [exprOk, Bool.and_eq_true, Bool.not_eq_true'] at he
    intro hh
    have : e.isEmpty = true := by
      cases e; simp_all [String.isEmpty, String.length]
    simp [this] at he
  rw [trimChars_pad e.data hne (fun c hc => (heprops c hc).2)]

theorem scanString_phWrap (e : String) (he : exprOk e) :
    scanString (phWrap e) = [Segment.ph e] := by
  have h := scanString_decompose "" e "" (by decide) he
  have h2 : ("" : String) ++ phWrap e ++ "" = phWrap e := by
    simp [String.append_empty]
  rw [h2] at h
  simpa [scanString, scanAux, emitLit] using h

theorem resolveString_pure (ctx : Ctx) (e : String) (he : exprOk e) :
    resolveString ctx (phWrap e) = resolveExpr ctx e := by
  unfold resolveString
  rw [scanString_phWrap e he]

theorem emitLit_str (t : String) :
    emitLit t.data.reverse = if t = "" then [] else [Segment.lit t] := by
  by_cases h : t = ""
  · subst h; simp [emitLit]
  · rw [if_neg h]
    unfold emitLit
    rw [if_neg (by
      simp only [List.isEmpty_eq_true, List.reverse_eq_nil_iff]
      intro hh; apply h; cases t; simp_all)]
    simp

theorem resolveString_embedded (ctx : Ctx) (pre e post : String) (v : JValue)
    (hpre : litOk pre) (he : exprOk e) (hpost : litOk post)
    (hne : pre ≠ "" ∨ post ≠ "") (hv : resolveExpr ctx e = Except.ok v) :
    resolveString ctx (pre ++ phWrap e ++ post) =
      Except.ok (JValue.str (pre ++ render v ++ post)) := by
  unfold resolveString
  rw [scanString_decompose pre e post hpre he, scanString_lit post hpost,
    emitLit_str pre, emitLit_str post]
  by_cases h1 : pre = "" <;> by_cases h2 : post = ""
  · exact absurd h1 (by tauto)
  all_goals subst_vars
  all_goals simp only [*, if_true, if_false, reduceIte, ite_false, ite_true,
    List.singleton_append, List.cons_append, List.nil_append, List.mapM, List.mapM.loop,
    renderSeg, String.join, Except.map, String.append_empty]
  all_goals rfl

theorem resolveString_two (ctx : Ctx) (pre mid post e1 e2 : String) (v1 v2 : JValue)
    (hpre : litOk pre) (hmid : litOk mid) (hpost : litOk post)
    (he1 : exprOk e1) (he2 : exprOk e2)
    (hv1 : resolveExpr ctx e1 = Except.ok v1) (hv2 : resolveExpr ctx e2 = Except.ok v2) :
    resolveString ctx (pre ++ phWrap e1 ++ mid ++ phWrap e2 ++ post) =
      Except.ok (JValue.str (pre ++ render v1 ++ mid ++ render v2 ++ post)) := by
  have hassoc : pre ++ phWrap e1 ++ mid ++ phWrap e2 ++ post =
      pre ++ phWrap e1 ++ (mid ++ phWrap e2 ++ post) := by
    simp [String.append_assoc]
  unfold resolveString
  rw [hassoc, scanString_decompose pre e1 _ hpre he1,
    scanString_decompose mid e2 post hmid he2, scanString_lit post hpost,
    emitLit_str pre, emitLit_str mid, emitLit_str post]
  by_cases h1 : pre = "" <;> by_cases h2 : mid = "" <;> by_cases h3 : post = ""
  all_goals subst_vars
  all_goals simp only [*, if_true, if_false, reduceIte, ite_false, ite_true,
    List.singleton_append, List.cons_append, List.nil_append, List.append_nil, List.mapM,
    List.mapM.loop, renderSeg, String.join, Except.map, String.append_empty]
  all_goals rfl

/-! ## Lemmas: expression dispatch -/

theorem splitDots_cons (acc : List Char) (c : Char) (rest : List Char) (h : c ≠ '.') :
    splitDots acc (c :: rest) = splitDots (c :: acc) rest := by
  rw [splitDots.eq_def]
  split
  · rename_i heq; exact absurd heq (List.cons_ne_nil c rest)
  · rename_i rest' heq; injection heq with hc _; exact absurd hc h
  · rename_i c' rest' heq; injection heq with hc hrest; subst hc; subst hrest; rfl

theorem splitDots_no_dot (cs : List Char) (acc : List Char) (h : ∀ c ∈ cs, c ≠ '.') :
    splitDots acc cs = [String.mk (acc.reverse ++ cs)] := by
  induction cs generalizing acc with
  | nil => simp [splitDots]
  | cons c rest ih =>
      rw [splitDots_cons acc c rest (h c (by simp))]
      rw [ih _ (fun d hd => h d (by simp [hd]))]
      simp

theorem splitDots_append_dot (i : List Char) (acc rest : List Char)
    (h : ∀ c ∈ i, c ≠ '.') :
    splitDots acc (i ++ '.' :: rest) = String.mk (acc.reverse ++ i) :: splitDots [] rest := by
  induction i generalizing acc with
  | nil => simp [splitDots]
  | cons c i' ih =>
      rw [List.cons_append, splitDots_cons acc c _ (h c (by simp))]
      rw [ih _ (fun d hd => h d (by simp [hd]))]
      simp

/-- Unpack the Boolean `nameOk` into its four character facts. -/
theorem nameOk_spec (s : String) (h : nameOk s) :
    s.data ≠ [] ∧ ∀ c ∈ s.data,
      plainChar c = true ∧ isWsChar c = false ∧ c ≠ '.' ∧ c ≠ '$' := by
  simp only [nameOk, Bool.and_eq_true, List.all_eq_true, Bool.not_eq_true'] at h
  constructor
  · intro hh
    have : s.isEmpty = true := by cases s; simp_all [String.isEmpty, String.length]
    simp [this] at h
  · intro c hc
    have := h.2 c hc
    simp only [Bool.and_eq_true, Bool.not_eq_true', decide_eq_true_eq] at this
    exact ⟨this.1.1.1, this.1.1.2, this.1.2, this.2⟩

theorem splitDots_two (i f : String) (hi : nameOk i) (hf : nameOk f) :
    splitDots [] (i ++ "." ++ f).data = [i, f] := by
  have hdata : (i ++ "." ++ f).data = i.data ++ '.' :: f.data := by
    show (i.data ++ ".".data) ++ f.data = _
    simp
  rw [hdata,
    splitDots_append_dot i.data [] f.data (fun c hc => ((nameOk_spec i hi).2 c hc).2.2.1),
    splitDots_no_dot f.data [] (fun c hc => ((nameOk_spec f hf).2 c hc).2.2.1)]
  simp

/-- Resolution of a `<step_id>.<field>` expression against the flat
OutputContext: the named step's result mapping serves the field. -/
theorem resolveExpr_dotted (ctx : Ctx) (i f : String) (kvs : Obj) (v : JValue)
    (hi : nameOk i) (hf : nameOk f)
    (hstep : lookupA ctx.outputs i = some (JValue.obj kvs))
    (hfield : lookupA kvs f = some v) :
    resolveExpr ctx (i ++ "." ++ f) = Except.ok v := by
  unfold resolveExpr
  rw [splitDots_two i f hi hf]
  split
  · rename_i heq; simp at heq
  · rename_i heq; simp at heq
  · split
    · rename_i nameChars heq
      obtain ⟨hne, hchars⟩ := nameOk_spec i hi
      cases hidata : i.data with
      | nil => exact absurd hidata hne
      | cons c rest =>
          have hd : (i ++ "." ++ f).data = c :: (rest ++ '.' :: f.data) := by
            show (i.data ++ ".".data) ++ f.data = _
            rw [hidata]
            simp
          rw [hd] at heq
          injection heq with hc _
          exact absurd hc (hchars c (by simp [hidata])).2.2.2
    · show (match getPath (JValue.obj ctx.outputs) [i, f] with
        | some v => Except.ok v
        | none => Except.error (ResolutionError.unresolved (i ++ "." ++ f))) = Except.ok v
      simp [getPath, hstep, hfield]

/-- Resolution of a bare `<field>` expression: the flattened root view
of the OutputContext serves it. -/
theorem resolveExpr_bare (ctx : Ctx) (f : String) (v : JValue)
    (hf : nameOk f) (hfield : lookupA ctx.outputs f = some v) :
    resolveExpr ctx f = Except.ok v := by
  obtain ⟨hne, hchars⟩ := nameOk_spec f hf
  obtain ⟨fdata⟩ := f
  unfold resolveExpr
  rw [splitDots_no_dot (String.mk fdata).data [] (fun c hc => (hchars c hc).2.2.1)]
  simp only [List.reverse_nil, List.nil_append]
  split
  · rename_i heq; simp at heq
  · rename_i heq; simp at heq
  · split
    · exact absurd rfl ((hchars '$' (by simp)).2.2.2)
    · show (match getPath (JValue.obj ctx.outputs) [String.mk fdata] with
        | some v => Except.ok v
        | none => Except.error (ResolutionError.unresolved (String.mk fdata))) = Except.ok v
      simp [getPath, hfield]

/-- Resolution of a `$NAME` environment reference when the variable is
set. -/
theorem resolveExpr_env_set (ctx : Ctx) (n val : String) (hn : nameOk n)
    (henv : ctx.env n = some val) :
    resolveExpr ctx ("$" ++ n) = Except.ok (JValue.str val) := by
  obtain ⟨hne, hchars⟩ := nameOk_spec n hn
  obtain ⟨ndata⟩ := n
  have hdata : ("$" ++ String.mk ndata).data = '$' :: ndata := by
    show "$".data ++ ndata = _
    simp
  unfold resolveExpr
  rw [hdata, splitDots_no_dot ('$' :: ndata) []
    (by
      intro c hc
      rcases List.mem_cons.mp hc with rfl | hc
      · decide
      · exact (hchars c hc).2.2.1)]
  split
  · rename_i heq; simp at heq
  · rename_i heq; simp at heq
  · split
    · rename_i nameChars heq
      injection heq with _ hrest
      subst hrest
      rw [henv]
    · rename_i hno
      exact (hno ndata rfl).elim

/-- Resolution of a `$NAME` environment reference when the variable is
unset: the literal text is preserved, with no error. -/
theorem resolveExpr_env_unset (ctx : Ctx) (n : String) (hn : nameOk n)
    (henv : ctx.env n = none) :
    resolveExpr ctx ("$" ++ n) = Except.ok (JValue.str ("$" ++ n)) := by
  obtain ⟨hne, hchars⟩ := nameOk_spec n hn
  obtain ⟨ndata⟩ := n
  have hdata : ("$" ++ String.mk ndata).data = '$' :: ndata := by
    show "$".data ++ ndata = _
    simp
  unfold resolveExpr
  rw [hdata, splitDots_no_dot ('$' :: ndata) []
    (by
      intro c hc
      rcases List.mem_cons.mp hc with rfl | hc
      · decide
      · exact (hchars c hc).2.2.1)]
  split
  · rename_i heq; simp at heq
  · rename_i heq; simp at heq
  · split
    · rename_i nameChars heq
      injection heq with _ hrest
      subst hrest
      rw [henv]
    · rename_i hno
      exact (hno ndata rfl).elim

/-! ## Lemmas: resolution is the identity on placeholder-free values -/

theorem foldl_append_init (l : List String) (x y : String) :
    l.foldl (· ++ ·) (x ++ y) = x ++ l.foldl (· ++ ·) y := by
  induction l generalizing y with
  | nil => simp
  | cons a l ih => simp only [List.foldl, String.append_assoc, ih]

theorem join_cons (a : String) (l : List String) :
    String.join (a :: l) = a ++ String.join l := by
  show List.foldl (· ++ ·) ("" ++ a) l = a ++ List.foldl (· ++ ·) "" l
  have h1 : ("" : String) ++ a = a ++ "" := by simp [String.append_empty]
  rw [h1, foldl_append_init]

theorem scanAux_lit_cons_cond (acc : List Char) (c : Char) (rest : List Char)
    (h1 : ∀ r, c = '\x7b' → rest = '\x7b' :: r → False)
    (h2 : ∀ r, c = '\x7d' → rest = '\x7d' :: r → False) :
    scanAux acc none (c :: rest) = scanAux (c :: acc) none rest := by
  rw [scanAux.eq_def]
  split
  · rename_i heq; exact absurd heq (List.cons_ne_nil c rest)
  · rename_i r heq; injection heq with hc hr; exact (h1 r hc hr).elim
  · rename_i r heq; injection heq with hc hr; exact (h2 r hc hr).elim
  · rename_i c' r heq; injection heq with hc hr; subst hc; subst hr; rfl

theorem scanAux_ph_cons_cond (acc p : List Char) (c : Char) (rest : List Char)
    (h1 : ∀ r, c = '\x7b' → rest = '\x7b' :: r → False)
    (h2 : ∀ r, c = '\x7d' → rest = '\x7d' :: r → False) :
    scanAux acc (some p) (c :: rest) = scanAux acc (some (c :: p)) rest := by
  rw [scanAux.eq_def]
  split
  · rename_i heq; exact absurd heq (List.cons_ne_nil c rest)
  · rename_i r heq; injection heq with hc hr; exact (h1 r hc hr).elim
  · rename_i r heq; injection heq with hc hr; exact (h2 r hc hr).elim
  · rename_i c' r heq; injection heq with hc hr; subst hc; subst hr; rfl

theorem scanAux_all_lit_join (acc : List Char) (pacc : Option (List Char)) (cs : List Char) :
    (scanAux acc pacc cs).all (fun seg => !isPhSeg seg) →
    joinLits (scanAux acc pacc cs) =
      String.mk (acc.reverse ++
        (match pacc with
         | none => []
         | some p => '\x7b' :: '\x7b' :: p.reverse) ++ cs) := by
  induction acc, pacc, cs using scanAux.induct with
  | case1 acc =>
      intro _
      by_cases h : acc.isEmpty
      · have : acc = [] := by simpa using h
        simp [scanAux, emitLit, this, joinLits]
      · simp [scanAux, emitLit, h, joinLits, segText]
  | case2 acc p =>
      intro _
      have hne : (p ++ '\x7b' :: '\x7b' :: acc).isEmpty = false := by simp
      show joinLits (emitLit (p ++ '\x7b' :: '\x7b' :: acc)) = _
      simp [emitLit, hne, joinLits, segText]
  | case3 acc rest ih =>
      intro h
      rw [scanAux_open] at h ⊢
      rw [ih h]
      simp
  | case4 acc rest p ih =>
      intro h
      have hstep : scanAux acc (some p) ('\x7b' :: '\x7b' :: rest) =
          scanAux acc (some ('\x7b' :: '\x7b' :: p)) rest := rfl
      rw [hstep] at h ⊢
      rw [ih h]
      simp
  | case5 acc rest ih =>
      intro h
      have hstep : scanAux acc none ('\x7d' :: '\x7d' :: rest) =
          scanAux ('\x7d' :: '\x7d' :: acc) none rest := rfl
      rw [hstep] at h ⊢
      rw [ih h]
      simp
  | case6 acc rest p ih =>
      intro h
      rw [scanAux_close] at h
      simp [isPhSeg] at h
  | case7 acc c rest h1 h2 ih =>
      intro h
      rw [scanAux_lit_cons_cond acc c rest h1 h2] at h ⊢
      rw [ih h]
      simp
  | case8 acc c rest h1 h2 p ih =>
      intro h
      rw [scanAux_ph_cons_cond acc p c rest h1 h2] at h ⊢
      rw [ih h]
      simp

theorem scanString_all_lit_join (s : String)
    (h : (scanString s).all (fun seg => !isPhSeg seg)) :
    joinLits (scanString s) = s := by
  have := scanAux_all_lit_join [] none s.data h
  simpa [scanString] using this

theorem mapM_renderSeg_lits (ctx : Ctx) (segs : List Segment)
    (h : segs.all (fun seg => !isPhSeg seg)) :
    segs.mapM (renderSeg ctx) = Except.ok (segs.map segText) := by
  induction segs with
  | nil => rfl
  | cons seg rest ih =>
      simp only [List.all_cons, Bool.and_eq_true] at h
      cases seg with
      | lit t =>
          rw [List.mapM_cons, ih h.2]
          rfl
      | ph e => simp [isPhSeg] at h

theorem join_map_segText (segs : List Segment) :
    String.join (segs.map segText) = joinLits segs := by
  induction segs with
  | nil => rfl
  | cons seg rest ih => rw [List.map_cons, join_cons, ih, joinLits]

/-- When the scan of a string is not a single pure placeholder, the
string resolves by stringifying and concatenating its segments. -/
theorem resolveString_eq_concat (ctx : Ctx) (s : String)
    (h : ∀ e, scanString s ≠ [Segment.ph e]) :
    resolveString ctx s =
      ((scanString s).mapM (renderSeg ctx)).map
        (fun parts => JValue.str (String.join parts)) := by
  unfold resolveString
  cases hscan : scanString s with
  | nil => rfl
  | cons seg rest =>
      cases seg with
      | lit t => rfl
      | ph e =>
          cases rest with
          | nil => exact absurd hscan (h e)
          | cons seg' rest' => rfl

/-- A string with no placeholder spans resolves to itself. -/
theorem resolveString_no_ph (ctx : Ctx) (s : String)
    (h : (scanString s).all (fun seg => !isPhSeg seg)) :
    resolveString ctx s = Except.ok (JValue.str s) := by
  have hnotph : ∀ e, scanString s ≠ [Segment.ph e] := by
    intro e heq
    rw [heq] at h
    simp [isPhSeg] at h
  rw [resolveString_eq_concat ctx s hnotph, mapM_renderSeg_lits ctx _ h]
  show Except.ok (JValue.str (String.join ((scanString s).map segText))) = _
  rw [join_map_segText, scanString_all_lit_join s h]

mutual
theorem resolveValue_noPh (ctx : Ctx) (v : JValue) (h : noPh v = true) :
    resolveValue ctx v = Except.ok v := by
  match v with
  | JValue.null => rfl
  | JValue.bool b => rfl
  | JValue.int n => rfl
  | JValue.str s =>
      show resolveString ctx s = Except.ok (JValue.str s)
      exact resolveString_no_ph ctx s (by simpa [noPh] using h)
  | JValue.list xs =>
      show (resolveList ctx xs).map JValue.list = Except.ok (JValue.list xs)
      rw [resolveList_noPh ctx xs (by simpa [noPh] using h)]
      rfl
  | JValue.obj kvs =>
      show (resolveObj ctx kvs).map JValue.obj = Except.ok (JValue.obj kvs)
      rw [resolveObj_noPh ctx kvs (by simpa [noPh] using h)]
      rfl

theorem resolveList_noPh (ctx : Ctx) (xs : List JValue) (h : noPhList xs = true) :
    resolveList ctx xs = Except.ok xs := by
  match xs with
  | [] => rfl
  | x :: rest =>
      simp only [noPhList, Bool.and_eq_true] at h
      show (do
        let x' ← resolveValue ctx x
        let rest' ← resolveList ctx rest
        Except.ok (x' :: rest')) = Except.ok (x :: rest)
      rw [resolveValue_noPh ctx x h.1, resolveList_noPh ctx rest h.2]
      rfl

theorem resolveObj_noPh (ctx : Ctx) (kvs : List (String × JValue)) (h : noPhObj kvs = true) :
    resolveObj ctx kvs = Except.ok kvs := by
  match kvs with
  | [] => rfl
  | (k, v) :: rest =>
      simp only [noPhObj, Bool.and_eq_true] at h
      show (do
        let v' ← resolveValue ctx v
        let rest' ← resolveObj ctx rest
        Except.ok ((k, v') :: rest')) = Except.ok ((k, v) :: rest)
      rw [resolveValue_noPh ctx v h.1, resolveObj_noPh ctx rest h.2]
      rfl
end

/-! ## Claim theorems: the template resolver -/

/-- Claim C1: a string parameter whose entire content is exactly one
placeholder is replaced by the resolved value in its native type (a
credentials block resolves to a mapping, not a string); a string with a
placeholder embedded in surrounding text, or with several placeholders,
resolves to the single string obtained by stringifying each resolved
value and concatenating it with the literal text in order. -/
theorem C1_type_preservation (ctx : Ctx) :
    (∀ e : String, exprOk e → resolveString ctx (phWrap e) = resolveExpr ctx e) ∧
    (∀ (pre e post : String) (v : JValue), litOk pre → exprOk e → litOk post →
      (pre ≠ "" ∨ post ≠ "") → resolveExpr ctx e = Except.ok v →
      resolveString ctx (pre ++ phWrap e ++ post) =
        Except.ok (JValue.str (pre ++ render v ++ post))) ∧
    (∀ (pre mid post e1 e2 : String) (v1 v2 : JValue),
      litOk pre → litOk mid → litOk post → exprOk e1 → exprOk e2 →
      resolveExpr ctx e1 = Except.ok v1 → resolveExpr ctx e2 = Except.ok v2 →
      resolveString ctx (pre ++ phWrap e1 ++ mid ++ phWrap e2 ++ post) =
        Except.ok (JValue.str (pre ++ render v1 ++ mid ++ render v2 ++ post))) := by
  refine ⟨fun e he => resolveString_pure ctx e he, ?_, ?_⟩
  · intro pre e post v hpre he hpost hne hv
    exact resolveString_embedded ctx pre e post v hpre he hpost hne hv
  · intro pre mid post e1 e2 v1 v2 hpre hmid hpost he1 he2 hv1 hv2
    exact resolveString_two ctx pre mid post e1 e2 v1 v2 hpre hmid hpost he1 he2 hv1 hv2

/-- Witness for C1 at concrete inputs: a sole credentials-block
placeholder yields the mapping itself; two variable placeholders inside
text yield one concatenated string. -/
theorem C1_witness :
    resolveString egCtx "\x7b\x7b store.blocks.mockgitcredentials.my-credentials \x7d\x7d" =
      Except.ok (JValue.obj
        [("username", JValue.str "marvin42"), ("password", JValue.str "hunter2")]) ∧
    resolveString egCtx
        "echo '\x7b\x7b store.variables.test_variable_1 \x7d\x7d:\x7b\x7b store.variables.test_variable_2 \x7d\x7d'" =
      Except.ok (JValue.str "echo 'test_value_1:test_value_2'") := by
  constructor
  · exact ((C1_type_preservation egCtx).1
      "store.blocks.mockgitcredentials.my-credentials" (by decide)).trans (by rfl)
  · exact ((C1_type_preservation egCtx).2.2 "echo '" ":" "'"
      "store.variables.test_variable_1" "store.variables.test_variable_2"
      (JValue.str "test_value_1") (JValue.str "test_value_2")
      (by decide) (by decide) (by decide) (by decide) (by decide)
      (by rfl) (by rfl)).trans (by rfl)

/-- Claim C4: a `\x7b\x7b $NAME \x7d\x7d` placeholder resolves to the
value of the environment variable `NAME` when it is set; when it is
unset, resolution does not fail and the literal text `$NAME` is
preserved unchanged. -/
theorem C4_env_placeholder (ctx : Ctx) (n : String) (hn : nameOk n) :
    (∀ val, ctx.env n = some val →
      resolveString ctx (phWrap ("$" ++ n)) = Except.ok (JValue.str val)) ∧
    (ctx.env n = none →
      resolveString ctx (phWrap ("$" ++ n)) = Except.ok (JValue.str ("$" ++ n))) := by
  have hexpr : exprOk ("$" ++ n) := by
    obtain ⟨hne, hchars⟩ := nameOk_spec n hn
    simp only [exprOk, Bool.and_eq_true, List.all_eq_true]
    constructor
    · simp only [Bool.not_eq_true']
      rw [Bool.eq_false_iff]
      intro hh
      have hemp : ("$" ++ n) = "" := (String.isEmpty_iff _).mp hh
      have : ("$" ++ n).data = '$' :: n.data := by
        show "$".data ++ n.data = _
        simp
      rw [hemp] at this
      exact List.cons_ne_nil '$' n.data this.symm
    · intro c hc
      have hdata : ("$" ++ n).data = '$' :: n.data := by
        show "$".data ++ n.data = _
        simp
      rw [hdata] at hc
      rcases List.mem_cons.mp hc with rfl | hc
      · decide
      · have := hchars c hc
        simp [this.1, this.2.1]
  constructor
  · intro val henv
    rw [resolveString_pure ctx _ hexpr]
    exact resolveExpr_env_set ctx n val hn henv
  · intro henv
    rw [resolveString_pure ctx _ hexpr]
    exact resolveExpr_env_unset ctx n hn henv

/-- Witness for C4 at the test's concrete inputs: `TEST_ENV_VAR` is set
to `test_value` and resolves to it; `UNSET_VAR` is unset and the literal
text survives. -/
theorem C4_witness :
    resolveString egCtx (phWrap "$TEST_ENV_VAR") = Except.ok (JValue.str "test_value") ∧
    resolveString egCtx (phWrap "$UNSET_VAR") = Except.ok (JValue.str "$UNSET_VAR") := by
  constructor
  · exact (C4_env_placeholder egCtx "TEST_ENV_VAR" (by decide)).1 "test_value" (by rfl)
  · exact ((C4_env_placeholder egCtx "UNSET_VAR" (by decide)).2 (by rfl)).trans (by rfl)

/-- Claim C8: resolving a value that contains no placeholder spans is
the identity: mappings keep their keys, sequences their order, and
non-string scalars their type and value. -/
theorem C8_resolve_identity (ctx : Ctx) (v : JValue) (h : noPh v = true) :
    resolveValue ctx v = Except.ok v :=
  resolveValue_noPh ctx v h

/-- Witness for C8 on a nested placeholder-free value. -/
theorem C8_witness :
    noPh (JValue.obj
      [("script", JValue.str "echo 'this is a test'"),
       ("n", JValue.int 3),
       ("xs", JValue.list [JValue.bool true, JValue.null, JValue.str "plain"])]) = true ∧
    resolveValue egCtx (JValue.obj
      [("script", JValue.str "echo 'this is a test'"),
       ("n", JValue.int 3),
       ("xs", JValue.list [JValue.bool true, JValue.null, JValue.str "plain"])]) =
      Except.ok (JValue.obj
        [("script", JValue.str "echo 'this is a test'"),
         ("n", JValue.int 3),
         ("xs", JValue.list [JValue.bool true, JValue.null, JValue.str "plain"])]) :=
  ⟨by decide, C8_resolve_identity egCtx _ (by decide)⟩

/-! ## Claim theorems: the output context -/

/-- Claim C2: after a successful step, the runner merges the result into
the OutputContext: with a declared `id` the full result is stored under
that id and the result's top-level keys overwrite the flattened root
(last write wins, older bindings of other keys untouched); without an
`id` only the root view is updated.  Consequently an `<id>.<field>`
placeholder resolves to the identified step's value and a bare `<field>`
placeholder resolves to the most recently merged value of that field.
The final conjunct ties this merge to `runSteps`' per-step recursion. -/
theorem C2_output_merge (outputs kvs : Obj) (i : String)
    (hnd : (keysOf kvs).Nodup) :
    (lookupA (mergeOutputs outputs (some i) (JValue.obj kvs)) i = some (JValue.obj kvs)) ∧
    (∀ k v, k ≠ i → lookupA kvs k = some v →
      lookupA (mergeOutputs outputs (some i) (JValue.obj kvs)) k = some v) ∧
    (∀ k, k ≠ i → lookupA kvs k = none →
      lookupA (mergeOutputs outputs (some i) (JValue.obj kvs)) k = lookupA outputs k) ∧
    (∀ k v, lookupA kvs k = some v →
      lookupA (mergeOutputs outputs none (JValue.obj kvs)) k = some v) ∧
    (∀ k, lookupA kvs k = none →
      lookupA (mergeOutputs outputs none (JValue.obj kvs)) k = lookupA outputs k) ∧
    (∀ (env : String → Option String) (store : StoreClient) (f : String) (v : JValue),
      nameOk i → nameOk f → lookupA kvs f = some v →
      resolveExpr ⟨mergeOutputs outputs (some i) (JValue.obj kvs), env, store⟩
        (i ++ "." ++ f) = Except.ok v) ∧
    (∀ (env : String → Option String) (store : StoreClient) (f : String) (v : JValue),
      nameOk f → f ≠ i → lookupA kvs f = some v →
      resolveExpr ⟨mergeOutputs outputs (some i) (JValue.obj kvs), env, store⟩ f =
        Except.ok v) ∧
    (∀ (reg : Registry) (sink : Sink) (env : String → Option String) (store : StoreClient)
      (spec : Obj) (rest : List Obj) (sid : Option String) (result : JValue)
      (events : List PrintEvent),
      runStepCore reg sink ⟨outputs, env, store⟩ spec = Except.ok (sid, result, events) →
      runSteps reg sink env store (spec :: rest) outputs =
        (runSteps reg sink env store rest (mergeOutputs outputs sid result)).map
          (fun r => (r.1,
            (⟨" > Running " ++ shortName (qualifiedName spec) ++ " step...", none⟩ :
              PrintEvent) :: events ++ r.2))) := by
  have hroot_mem : ∀ k v, lookupA kvs k = some v →
      lookupA (kvs.foldl (fun o kv => upsertA o kv.1 kv.2) outputs) k = some v :=
    fun k v h => lookupA_foldl_upsert_mem kvs outputs k v hnd h
  have hroot_notMem : ∀ k, lookupA kvs k = none →
      lookupA (kvs.foldl (fun o kv => upsertA o kv.1 kv.2) outputs) k = lookupA outputs k :=
    fun k h => lookupA_foldl_upsert_notMem kvs outputs k ((lookupA_eq_none_iff kvs k).mp h)
  have hA : lookupA (mergeOutputs outputs (some i) (JValue.obj kvs)) i =
      some (JValue.obj kvs) := by
    unfold mergeOutputs
    exact lookupA_upsertA_self _ i _
  have hB : ∀ k v, k ≠ i → lookupA kvs k = some v →
      lookupA (mergeOutputs outputs (some i) (JValue.obj kvs)) k = some v := by
    intro k v hk h
    unfold mergeOutputs
    rw [lookupA_upsertA_ne _ i k _ hk]
    exact hroot_mem k v h
  refine ⟨hA, hB, ?_, ?_, ?_, ?_, ?_, ?_⟩
  · intro k hk h
    unfold mergeOutputs
    rw [lookupA_upsertA_ne _ i k _ hk]
    exact hroot_notMem k h
  · intro k v h
    unfold mergeOutputs
    exact hroot_mem k v h
  · intro k h
    unfold mergeOutputs
    exact hroot_notMem k h
  · intro env store f v hi hf hfield
    exact resolveExpr_dotted _ i f kvs v hi hf hA hfield
  · intro env store f v hf hfi hfield
    exact resolveExpr_bare _ f v hf (hB f v hfi hfield)
  · intro reg sink env store spec rest sid result events hstep
    simp only [runSteps]
    rw [hstep]

/-- Witness for C2 on the two-step test scenario: the first step's
result is stored under `why_not_to_panic`, its fields overwrite the
root, and both the tagged and the bare placeholder resolve. -/
theorem C2_witness :
    (lookupA (mergeOutputs [] (some "why_not_to_panic")
        (JValue.obj [("stdout", JValue.str "this is a test"), ("stderr", JValue.str "")]))
      "why_not_to_panic" =
      some (JValue.obj [("stdout", JValue.str "this is a test"), ("stderr", JValue.str "")])) ∧
    (resolveExpr ⟨mergeOutputs [] (some "why_not_to_panic")
        (JValue.obj [("stdout", JValue.str "this is a test"), ("stderr", JValue.str "")]),
        egEnv, egStore⟩ ("why_not_to_panic" ++ "." ++ "stdout") =
      Except.ok (JValue.str "this is a test")) ∧
    (resolveExpr ⟨mergeOutputs [] (some "why_not_to_panic")
        (JValue.obj [("stdout", JValue.str "this is a test"), ("stderr", JValue.str "")]),
        egEnv, egStore⟩ "stdout" = Except.ok (JValue.str "this is a test")) := by
  refine ⟨(C2_output_merge [] _ "why_not_to_panic" (by decide)).1, ?_, ?_⟩
  · exact (C2_output_merge [] _ "why_not_to_panic" (by decide)).2.2.2.2.2.1
      egEnv egStore "stdout" (JValue.str "this is a test") (by decide) (by decide) (by rfl)
  · exact (C2_output_merge [] _ "why_not_to_panic" (by decide)).2.2.2.2.2.2.1
      egEnv egStore "stdout" (JValue.str "this is a test") (by decide) (by decide) (by rfl)

/-! ## Claim theorems: the pipeline runner -/

theorem except_map_error_iff {α β γ : Type} (x : Except α β) (f : β → γ) (e : α) :
    x.map f = Except.error e ↔ x = Except.error e := by
  cases x <;> simp [Except.map]

/-- Claim C3: a failing step aborts the pipeline at its index: the
underlying error is wrapped in a `StepExecutionError` whose message
contains the step's qualified name, the error propagates out of
`runSteps`, and the steps after the failing one are never resolved or
invoked (the outcome does not depend on them). -/
theorem C3_fail_fast (reg : Registry) (sink : Sink) (env : String → Option String)
    (store : StoreClient) :
    (∀ (spec : Obj) (rest : List Obj) (outputs : Obj) (e : StepError),
      runStepCore reg sink ⟨outputs, env, store⟩ spec = Except.error e →
      runSteps reg sink env store (spec :: rest) outputs =
        Except.error (StepError.stepExecutionError (qualifiedName spec) (describeError e)) ∧
      containsSub
        (errorMessage (StepError.stepExecutionError (qualifiedName spec) (describeError e)))
        (qualifiedName spec)) ∧
    (∀ (pre : List Obj) (spec : Obj) (rest : List Obj) (outputs : Obj),
      (∃ e, runSteps reg sink env store (pre ++ [spec]) outputs = Except.error e) →
      runSteps reg sink env store (pre ++ spec :: rest) outputs =
        runSteps reg sink env store (pre ++ [spec]) outputs) := by
  constructor
  · intro spec rest outputs e hstep
    constructor
    · simp only [runSteps]
      rw [hstep]
    · refine ⟨"Encountered error while running ", ": " ++ describeError e, ?_⟩
      show "Encountered error while running " ++ qualifiedName spec ++ ": " ++ describeError e
        = _
      rw [String.append_assoc]
  · intro pre
    induction pre with
    | nil =>
        intro spec rest outputs h
        obtain ⟨e, he⟩ := h
        simp only [List.nil_append] at he ⊢
        cases hcore : runStepCore reg sink ⟨outputs, env, store⟩ spec with
        | error e' =>
            simp only [runSteps]
            rw [hcore]
        | ok r =>
            exfalso
            obtain ⟨sid, res, evs⟩ := r
            simp only [runSteps] at he
            rw [hcore] at he
            simp only [runSteps, Except.map] at he
            exact Except.noConfusion he
    | cons s pre' ih =>
        intro spec rest outputs h
        obtain ⟨e, he⟩ := h
        simp only [List.cons_append] at he ⊢
        cases hcore : runStepCore reg sink ⟨outputs, env, store⟩ s with
        | error e' =>
            simp only [runSteps]
            rw [hcore]
        | ok r =>
            obtain ⟨sid, res, evs⟩ := r
            simp only [runSteps] at he ⊢
            rw [hcore] at he ⊢
            simp only [] at he ⊢
            have hinner :
                runSteps reg sink env store (pre' ++ [spec])
                  (mergeOutputs outputs sid res) = Except.error e :=
              (except_map_error_iff _ _ _).mp he
            rw [ih spec rest (mergeOutputs outputs sid res) ⟨e, hinner⟩]

/-- Witness for C3: an unknown qualified step name fails the pipeline
with a `StepExecutionError` naming it, and the result does not change
when further steps follow. -/
theorem C3_witness :
    runSteps egReg ⟨true⟩ egEnv egStore
        [[("nonexistent.module", JValue.obj [("value", JValue.str "x")])],
         [("prefect.deployments.steps.run_shell_script",
            JValue.obj [("script", JValue.str "never runs")])]] [] =
      Except.error (StepError.stepExecutionError "nonexistent.module"
        "No module named nonexistent.module") ∧
    containsSub
      (errorMessage (StepError.stepExecutionError "nonexistent.module"
        "No module named nonexistent.module")) "nonexistent.module" := by
  have h := (C3_fail_fast egReg ⟨true⟩ egEnv egStore).1
    [("nonexistent.module", JValue.obj [("value", JValue.str "x")])]
    [[("prefect.deployments.steps.run_shell_script",
        JValue.obj [("script", JValue.str "never runs")])]] []
    (StepError.invocationError "No module named nonexistent.module") (by rfl)
  exact ⟨h.1, h.2⟩

/-- Claim C5: a StepSpec whose number of top-level keys is not exactly
one is rejected with a `FormatError` whose message contains
"unexpected", before any resolution or invocation happens (the outcome
is a fixed error value, independent of the registry, sink and
context). -/
theorem C5_format_validation (reg : Registry) (sink : Sink) (ctx : Ctx) :
    (runStep reg sink ctx [] = Except.error (StepError.formatError formatMsg)) ∧
    (∀ (kv1 kv2 : String × JValue) (rest : Obj),
      runStep reg sink ctx (kv1 :: kv2 :: rest) =
        Except.error (StepError.formatError formatMsg)) ∧
    containsSub formatMsg "unexpected" := by
  refine ⟨rfl, ?_,
    ⟨"Encountered ", " step format; a step must have exactly one top-level key", by decide⟩⟩
  intro kv1 kv2 rest
  obtain ⟨n1, v1⟩ := kv1
  cases v1 <;> rfl

/-- Witness for C5 at the test's concrete malformed step (two top-level
keys). -/
theorem C5_witness :
    runStep egReg ⟨true⟩ egCtx
      [("prefect.deployments.steps.run_shell_script",
          JValue.obj [("script", JValue.str "echo 'this is a test'")]),
        ("jedi", JValue.int 0)] =
      Except.error (StepError.formatError formatMsg) :=
  (C5_format_validation egReg ⟨true⟩ egCtx).2.1 _ _ _

/-- Claim C6: every deprecation warning raised inside a step's
invocation is forwarded to the print sink with a style argument after
the step completes; a sink that raises on the styled call gets the same
message again without styling, and the sink's rejection is not an
execution failure: the step still succeeds, for every sink. -/
theorem C6_warning_forwarding (reg : Registry) (sink : Sink) (ctx : Ctx)
    (name : String) (params rparams : Obj) (f : StepFunc) (result : JValue)
    (warns : List String)
    (halias : aliasLookup reg.aliases name = none)
    (hreg : reg.lookup name = some f)
    (hres : resolveObj ctx params = Except.ok rparams)
    (hrun : f.run (removeKey rparams "id") = Except.ok (result, warns)) :
    runStepCore reg sink ctx [(name, JValue.obj params)] =
      Except.ok (declaredId rparams, result, warns.flatMap (printWarning sink)) ∧
    (∀ w ∈ warns,
      (⟨w, some "yellow"⟩ : PrintEvent) ∈ warns.flatMap (printWarning sink) ∧
      (sink.acceptsStyle = false →
        (⟨w, none⟩ : PrintEvent) ∈ warns.flatMap (printWarning sink))) := by
  constructor
  · simp only [runStepCore, hres, halias, runInvoke, hreg, hrun, List.nil_append]
  · intro w hw
    constructor
    · exact List.mem_flatMap.mpr ⟨w, hw, by cases hsty : sink.acceptsStyle <;>
        simp [printWarning, hsty]⟩
    · intro hsty
      exact List.mem_flatMap.mpr ⟨w, hw, by simp [printWarning, hsty]⟩

/-- Witness for C6: the monkeypatched warning step with a sink that
raises on the style keyword: the warning is attempted with style,
retried without, and the step still succeeds. -/
theorem C6_witness :
    runStepCore egReg ⟨false⟩ egCtx
        [("tests.warning_step", JValue.obj [("script", JValue.str "echo 'this is a test'")])] =
      Except.ok (none, JValue.obj [],
        [⟨"this is a warning", some "yellow"⟩, ⟨"this is a warning", none⟩]) ∧
    (⟨"this is a warning", none⟩ : PrintEvent) ∈
      (["this is a warning"].flatMap (printWarning ⟨false⟩)) := by
  have h := C6_warning_forwarding egReg ⟨false⟩ egCtx "tests.warning_step"
    [("script", JValue.str "echo 'this is a test'")]
    [("script", JValue.str "echo 'this is a test'")]
    ⟨warnEchoRun⟩ (JValue.obj []) ["this is a warning"]
    (by rfl) (by rfl) (by rfl) (by rfl)
  exact ⟨h.1.trans (by rfl), (h.2 "this is a warning" (by simp)).2 rfl⟩

theorem runInvoke_alias_events (reg : Registry) (sink : Sink) (rparams : Obj)
    (actualName : String) (ev : List PrintEvent) :
    runInvoke reg sink rparams actualName ev =
      (runInvoke reg sink rparams actualName []).map
        (fun r => (r.1, r.2.1, ev ++ r.2.2)) := by
  unfold runInvoke
  cases reg.lookup actualName with
  | none => rfl
  | some f =>
      dsimp only
      cases hrun : f.run (removeKey rparams "id") with
      | error m => rfl
      | ok r =>
          obtain ⟨res, warns⟩ := r
          simp [Except.map]

/-- Claim C7: a step invoked under a deprecated alias resolves to the
current symbol, emits the deprecation diagnostic before invoking, and
otherwise behaves exactly as the same step invoked under its current
qualified name: same declared id, same result, same trailing events. -/
theorem C7_deprecated_alias (reg : Registry) (sink : Sink) (ctx : Ctx)
    (params : Obj) (oldName newName : String)
    (hold : aliasLookup reg.aliases oldName = some newName)
    (hnew : aliasLookup reg.aliases newName = none) :
    runStepCore reg sink ctx [(oldName, JValue.obj params)] =
      (runStepCore reg sink ctx [(newName, JValue.obj params)]).map
        (fun r => (r.1, r.2.1, printWarning sink (deprecationMsg oldName newName) ++ r.2.2)) := by
  simp only [runStepCore]
  cases hres : resolveObj ctx params with
  | error e => rfl
  | ok rparams =>
      simp only [hold, hnew]
      exact runInvoke_alias_events reg sink rparams newName _

/-- Witness for C7 at the deprecated `git_clone_project`-style alias of
the shell step: the alias produces the same result plus the deprecation
diagnostic. -/
theorem C7_witness :
    runStepCore egReg ⟨true⟩ egCtx
        [("prefect.projects.steps.run_shell_script",
            JValue.obj [("script", JValue.str "hi")])] =
      Except.ok (none,
        JValue.obj [("stdout", JValue.str "hi"), ("stderr", JValue.str "")],
        [⟨deprecationMsg "prefect.projects.steps.run_shell_script"
            "prefect.deployments.steps.run_shell_script", some "yellow"⟩]) := by
  have h := C7_deprecated_alias egReg ⟨true⟩ egCtx [("script", JValue.str "hi")]
    "prefect.projects.steps.run_shell_script" "prefect.deployments.steps.run_shell_script"
    (by rfl) (by rfl)
  exact h.trans (by rfl)

/-! ## Lemmas: the JSON serializer -/

theorem charToNat_ofNat (n : Nat) (h : Nat.isValidChar n) : (Char.ofNat n).toNat = n := by
  unfold Char.ofNat
  rw [dif_pos h]
  unfold Char.ofNatAux
  simp only [Char.toNat, UInt32.toNat, BitVec.toNat_ofNatLt]

theorem char_valid_ranges (c : Char) :
    c.toNat < 55296 ∨ (57344 ≤ c.toNat ∧ c.toNat < 1114112) := c.valid

theorem utf8Cont_of (b : Nat) (h1 : 128 ≤ b) (h2 : b < 192) : utf8Cont b = true := by
  simp only [utf8Cont, decide_eq_true_eq]
  exact ⟨h1, h2⟩

theorem utf8Decode_encodeChar (c : Char) (bs : List Nat) :
    utf8Decode (utf8EncodeChar c ++ bs) = (utf8Decode bs).map (c :: ·) := by
  have hv := char_valid_ranges c
  unfold utf8EncodeChar
  by_cases h1 : c.toNat < 128
  · rw [if_pos h1]
    show utf8Decode (c.toNat :: bs) = _
    conv_lhs => rw [utf8Decode.eq_def]
    dsimp only
    rw [if_pos h1, Char.ofNat_toNat]
  · rw [if_neg h1]
    by_cases h2 : c.toNat < 2048
    · rw [if_pos h2]
      show utf8Decode ((192 + c.toNat / 64) :: (128 + c.toNat % 64) :: bs) = _
      conv_lhs => rw [utf8Decode.eq_def]
      dsimp only
      rw [if_neg (by omega), if_pos (by omega)]
      conv_lhs => rw [utf8Dec2.eq_def]
      dsimp only
      rw [if_pos (utf8Cont_of _ (by omega) (by omega))]
      have harith : (192 + c.toNat / 64 - 192) * 64 + (128 + c.toNat % 64 - 128) = c.toNat := by
        omega
      rw [harith, Char.ofNat_toNat]
    · rw [if_neg h2]
      by_cases h3 : c.toNat < 65536
      · rw [if_pos h3]
        show utf8Decode
          ((224 + c.toNat / 4096) :: (128 + c.toNat / 64 % 64) :: (128 + c.toNat % 64) :: bs) = _
        conv_lhs => rw [utf8Decode.eq_def]
        dsimp only
        rw [if_neg (by omega), if_neg (by omega), if_pos (by omega)]
        conv_lhs => rw [utf8Dec3.eq_def]
        dsimp only
        rw [if_pos ⟨utf8Cont_of _ (by omega) (by omega), utf8Cont_of _ (by omega) (by omega)⟩]
        have harith : (224 + c.toNat / 4096 - 224) * 4096 +
            (128 + c.toNat / 64 % 64 - 128) * 64 + (128 + c.toNat % 64 - 128) = c.toNat := by
          omega
        rw [harith, Char.ofNat_toNat]
      · rw [if_neg h3]
        show utf8Decode ((240 + c.toNat / 262144) :: (128 + c.toNat / 4096 % 64) ::
          (128 + c.toNat / 64 % 64) :: (128 + c.toNat % 64) :: bs) = _
        conv_lhs => rw [utf8Decode.eq_def]
        dsimp only
        rw [if_neg (by omega), if_neg (by omega), if_neg (by omega), if_pos (by omega)]
        conv_lhs => rw [utf8Dec4.eq_def]
        dsimp only
        rw [if_pos ⟨utf8Cont_of _ (by omega) (by omega), utf8Cont_of _ (by omega) (by omega),
          utf8Cont_of _ (by omega) (by omega)⟩]
        have harith : (240 + c.toNat / 262144 - 240) * 262144 +
            (128 + c.toNat / 4096 % 64 - 128) * 4096 +
            (128 + c.toNat / 64 % 64 - 128) * 64 + (128 + c.toNat % 64 - 128) = c.toNat := by
          omega
        rw [harith, Char.ofNat_toNat]

theorem utf8Decode_encode_list (cs : List Char) :
    utf8Decode (cs.flatMap utf8EncodeChar) = some cs := by
  induction cs with
  | nil => rfl
  | cons c rest ih =>
      rw [List.flatMap_cons, utf8Decode_encodeChar, ih]
      rfl

theorem utf8Decode_utf8Encode (s : String) : utf8Decode (utf8Encode s) = some s.data :=
  utf8Decode_encode_list s.data

theorem hexVal_hexDigitChar (d : Nat) (h : d < 16) : hexVal (hexDigitChar d) = some d := by
  interval_cases d <;> decide

theorem parseHex4_hex4 (n : Nat) (h : n < 65536) (rest : List Char) :
    parseHex4 (hex4 n ++ rest) = some (n, rest) := by
  show parseHex4 (hexDigitChar (n / 4096 % 16) :: hexDigitChar (n / 256 % 16) ::
    hexDigitChar (n / 16 % 16) :: hexDigitChar (n % 16) :: rest) = _
  unfold parseHex4
  dsimp only
  rw [hexVal_hexDigitChar _ (by omega), hexVal_hexDigitChar _ (by omega),
    hexVal_hexDigitChar _ (by omega), hexVal_hexDigitChar _ (by omega)]
  show some (n / 4096 % 16 * 4096 + n / 256 % 16 * 256 + n / 16 % 16 * 16 + n % 16, rest) = _
  have harith : n / 4096 % 16 * 4096 + n / 256 % 16 * 256 + n / 16 % 16 * 16 + n % 16 = n := by
    omega
  rw [harith]

theorem parseJStringBody_plain (fuel : Nat) (c : Char) (cs : List Char)
    (h1 : c ≠ '"') (h2 : c ≠ '\\') :
    parseJStringBody (fuel + 1) (c :: cs) =
      (parseJStringBody fuel cs).map (fun r => (c :: r.1, r.2)) := by
  rw [parseJStringBody.eq_def]
  dsimp only
  split
  · rename_i heq; exact absurd heq (List.cons_ne_nil c cs)
  · rename_i rest heq; injection heq with hc _; exact absurd hc h1
  · rename_i e rest heq; injection heq with hc _; exact absurd hc h2
  · rename_i c' rest heq; injection heq with hc hcs; subst hc; subst hcs; rfl

theorem parseJStringBody_uEsc (fuel : Nat) (n : Nat) (hn : n < 65536)
    (hsur : ¬(55296 ≤ n ∧ n < 57344)) (cs : List Char) :
    parseJStringBody (fuel + 1) ('\\' :: 'u' :: (hex4 n ++ cs)) =
      (parseJStringBody fuel cs).map (fun r => (Char.ofNat n :: r.1, r.2)) := by
  rw [parseJStringBody.eq_def]
  split
  · rename_i heq
    exact absurd heq (by omega)
  · rename_i f' heq
    injection heq with hf
    subst hf
    split
    · rename_i heq2
      exact absurd heq2 (by simp)
    · rename_i rest heq2
      injection heq2 with hc _
      exact absurd hc (by decide)
    · rename_i e rest heq2
      injection heq2 with _ htail
      injection htail with he hrest
      subst he
      subst hrest
      rw [if_neg (by decide), if_neg (by decide), if_neg (by decide), if_neg (by decide),
        if_neg (by decide), if_neg (by decide), if_neg (by decide), if_neg (by decide),
        if_pos rfl]
      rw [parseHex4_hex4 n hn cs]
      dsimp only
      rw [if_neg (by omega), if_neg (by omega)]
    · exfalso
      rename_i hb heq2
      injection heq2 with hc hrest
      subst hc
      subst hrest
      exact hb 'u' _ rfl rfl

theorem parseJStringBody_uPair (fuel : Nat) (n : Nat) (hn1 : 65536 ≤ n) (hn2 : n < 1114112)
    (cs : List Char) :
    parseJStringBody (fuel + 1) ('\\' :: 'u' :: (hex4 (55296 + (n - 65536) / 1024) ++
      ('\\' :: 'u' :: (hex4 (56320 + (n - 65536) % 1024) ++ cs)))) =
      (parseJStringBody fuel cs).map (fun r => (Char.ofNat n :: r.1, r.2)) := by
  rw [parseJStringBody.eq_def]
  split
  · rename_i heq
    exact absurd heq (by omega)
  · rename_i f' heq
    injection heq with hf
    subst hf
    split
    · rename_i heq2
      exact absurd heq2 (by simp)
    · rename_i rest heq2
      injection heq2 with hc _
      exact absurd hc (by decide)
    · rename_i e rest heq2
      injection heq2 with _ htail
      injection htail with he hrest
      subst he
      subst hrest
      rw [if_neg (by decide), if_neg (by decide), if_neg (by decide), if_neg (by decide),
        if_neg (by decide), if_neg (by decide), if_neg (by decide), if_neg (by decide),
        if_pos rfl]
      rw [parseHex4_hex4 _ (by omega)]
      dsimp only
      rw [if_pos (by omega)]
      split
      · rename_i rest2 heq3
        injection heq3 with _ htail3
        injection htail3 with _ hrest3
        subst hrest3
        rw [parseHex4_hex4 _ (by omega)]
        dsimp only
        rw [if_pos (by omega)]
        have hcomb : 65536 + (55296 + (n - 65536) / 1024 - 55296) * 1024 +
            (56320 + (n - 65536) % 1024 - 56320) = n := by
          omega
        rw [hcomb]
      · rename_i hne
        exact (hne (hex4 (56320 + (n - 65536) % 1024) ++ cs) rfl).elim
    · exfalso
      rename_i hb heq2
      injection heq2 with hc hrest
      subst hc
      subst hrest
      exact hb 'u' _ rfl rfl

theorem parseJStringBody_escaped (cs : List Char) : ∀ (rest : List Char) (fuel : Nat),
    (cs.flatMap escapeChar).length + rest.length + 1 ≤ fuel →
    parseJStringBody fuel (cs.flatMap escapeChar ++ '"' :: rest) = some (cs, rest) := by
  induction cs with
  | nil =>
      intro rest fuel hf
      match fuel, hf with
      | f + 1, _ => rfl
  | cons c cs' ih =>
      intro rest fuel hf
      rw [List.flatMap_cons] at hf ⊢
      rw [List.append_assoc]
      have hvalid := char_valid_ranges c
      by_cases h1 : c = '"'
      · subst h1
        rw [show escapeChar '"' = ['\\', '"'] from rfl] at hf ⊢
        match fuel, hf with
        | f + 1, hf =>
            show (parseJStringBody f (List.flatMap cs' escapeChar ++ '"' :: rest)).map
              (fun r => ('"' :: r.1, r.2)) = _
            rw [ih rest f (by simp at hf ⊢; omega)]
            rfl
      · by_cases h2 : c = '\\'
        · subst h2
          rw [show escapeChar '\\' = ['\\', '\\'] from rfl] at hf ⊢
          match fuel, hf with
          | f + 1, hf =>
              show (parseJStringBody f (List.flatMap cs' escapeChar ++ '"' :: rest)).map
                (fun r => ('\\' :: r.1, r.2)) = _
              rw [ih rest f (by simp at hf ⊢; omega)]
              rfl
        · by_cases h3 : c = '\n'
          · subst h3
            rw [show escapeChar '\n' = ['\\', 'n'] from rfl] at hf ⊢
            match fuel, hf with
            | f + 1, hf =>
                show (parseJStringBody f (List.flatMap cs' escapeChar ++ '"' :: rest)).map
                  (fun r => ('\n' :: r.1, r.2)) = _
                rw [ih rest f (by simp at hf ⊢; omega)]
                rfl
          · by_cases h4 : c = '\t'
            · subst h4
              rw [show escapeChar '\t' = ['\\', 't'] from rfl] at hf ⊢
              match fuel, hf with
              | f + 1, hf =>
                  show (parseJStringBody f (List.flatMap cs' escapeChar ++ '"' :: rest)).map
                    (fun r => ('\t' :: r.1, r.2)) = _
                  rw [ih rest f (by simp at hf ⊢; omega)]
                  rfl
            · by_cases h5 : c = '\r'
              · subst h5
                rw [show escapeChar '\r' = ['\\', 'r'] from rfl] at hf ⊢
                match fuel, hf with
                | f + 1, hf =>
                    show (parseJStringBody f (List.flatMap cs' escapeChar ++ '"' :: rest)).map
                      (fun r => ('\r' :: r.1, r.2)) = _
                    rw [ih rest f (by simp at hf ⊢; omega)]
                    rfl
              · by_cases h6 : c.toNat = 8
                · have hc : c = Char.ofNat 8 := by rw [← Char.ofNat_toNat c, h6]
                  have hesc : escapeChar c = ['\\', 'b'] := by
                    unfold escapeChar
                    rw [if_neg h1, if_neg h2, if_neg h3, if_neg h4, if_neg h5, if_pos h6]
                  rw [hesc] at hf ⊢
                  match fuel, hf with
                  | f + 1, hf =>
                      show (parseJStringBody f (List.flatMap cs' escapeChar ++ '"' :: rest)).map
                        (fun r => (Char.ofNat 8 :: r.1, r.2)) = _
                      rw [ih rest f (by simp at hf ⊢; omega), ← hc]
                      rfl
                · by_cases h7 : c.toNat = 12
                  · have hc : c = Char.ofNat 12 := by rw [← Char.ofNat_toNat c, h7]
                    have hesc : escapeChar c = ['\\', 'f'] := by
                      unfold escapeChar
                      rw [if_neg h1, if_neg h2, if_neg h3, if_neg h4, if_neg h5, if_neg h6,
                        if_pos h7]
                    rw [hesc] at hf ⊢
                    match fuel, hf with
                    | f + 1, hf =>
                        show (parseJStringBody f
                            (List.flatMap cs' escapeChar ++ '"' :: rest)).map
                          (fun r => (Char.ofNat 12 :: r.1, r.2)) = _
                        rw [ih rest f (by simp at hf ⊢; omega), ← hc]
                        rfl
                  · by_cases h8 : 32 ≤ c.toNat ∧ c.toNat ≤ 126
                    · have hesc : escapeChar c = [c] := by
                        unfold escapeChar
                        rw [if_neg h1, if_neg h2, if_neg h3, if_neg h4, if_neg h5, if_neg h6,
                          if_neg h7, if_pos h8]
                      rw [hesc] at hf ⊢
                      match fuel, hf with
                      | f + 1, hf =>
                          rw [List.singleton_append, parseJStringBody_plain f c _ h1 h2]
                          rw [ih rest f (by simp at hf ⊢; omega)]
                          rfl
                    · by_cases h9 : c.toNat < 65536
                      · have hesc : escapeChar c = '\\' :: 'u' :: hex4 c.toNat := by
                          unfold escapeChar
                          rw [if_neg h1, if_neg h2, if_neg h3, if_neg h4, if_neg h5, if_neg h6,
                            if_neg h7, if_neg h8, if_pos h9]
                        rw [hesc] at hf ⊢
                        match fuel, hf with
                        | f + 1, hf =>
                            show parseJStringBody (f + 1)
                              ('\\' :: 'u' :: (hex4 c.toNat ++
                                (List.flatMap cs' escapeChar ++ '"' :: rest))) = _
                            rw [parseJStringBody_uEsc f c.toNat (by omega) (by omega)]
                            rw [ih rest f (by simp at hf ⊢; omega), Char.ofNat_toNat]
                            rfl
                      · have hesc : escapeChar c =
                            ('\\' :: 'u' :: hex4 (55296 + (c.toNat - 65536) / 1024)) ++
                            ('\\' :: 'u' :: hex4 (56320 + (c.toNat - 65536) % 1024)) := by
                          unfold escapeChar
                          rw [if_neg h1, if_neg h2, if_neg h3, if_neg h4, if_neg h5, if_neg h6,
                            if_neg h7, if_neg h8, if_neg h9]
                        rw [hesc] at hf ⊢
                        match fuel, hf with
                        | f + 1, hf =>
                            show parseJStringBody (f + 1)
                              ('\\' :: 'u' :: (hex4 (55296 + (c.toNat - 65536) / 1024) ++
                                ('\\' :: 'u' :: (hex4 (56320 + (c.toNat - 65536) % 1024) ++
                                  (List.flatMap cs' escapeChar ++ '"' :: rest))))) = _
                            rw [parseJStringBody_uPair f c.toNat (by omega) (by omega)]
                            rw [ih rest f (by simp at hf ⊢; omega), Char.ofNat_toNat]
                            rfl

/-! ## The JSON parser against its printer -/

/-- Parsing a printed `null`. -/
theorem parseVal_null (hook : Obj → Option JValue) (f : Nat) (rest : List Char) :
    parseVal hook (f + 1) ('n' :: 'u' :: 'l' :: 'l' :: rest) = some (JValue.null, rest) := rfl

theorem parseVal_true (hook : Obj → Option JValue) (f : Nat) (rest : List Char) :
    parseVal hook (f + 1) ('t' :: 'r' :: 'u' :: 'e' :: rest) = some (JValue.bool true, rest) := rfl

theorem parseVal_false (hook : Obj → Option JValue) (f : Nat) (rest : List Char) :
    parseVal hook (f + 1) ('f' :: 'a' :: 'l' :: 's' :: 'e' :: rest) =
      some (JValue.bool false, rest) := rfl

theorem parseVal_str (hook : Obj → Option JValue) (f : Nat) (rest : List Char) :
    parseVal hook (f + 1) ('"' :: rest) =
      (parseJStringBody f rest).map (fun r => (JValue.str (String.mk r.1), r.2)) := rfl

theorem parseVal_neg (hook : Obj → Option JValue) (f : Nat) (rest : List Char) :
    parseVal hook (f + 1) ('-' :: rest) =
      (parseNatNum rest).map (fun r => (JValue.int (-(r.1 : Int)), r.2)) := rfl

theorem parseItems_step (hook : Obj → Option JValue) (f : Nat) (cs : List Char) :
    parseItems hook (f + 1) cs = (do
      let (v, rest) ← parseVal hook f cs
      match skipWs rest with
      | ',' :: rest' => (parseItems hook f (skipWs rest')).map (fun r => (v :: r.1, r.2))
      | ']' :: rest' => some ([v], rest')
      | _ => none) := rfl

theorem parseMembers_step (hook : Obj → Option JValue) (f : Nat) (cs : List Char) :
    parseMembers hook (f + 1) ('"' :: cs) = (do
      let (kchars, rest) ← parseJStringBody f cs
      match skipWs rest with
      | ':' :: rest' => do
          let (v, rest'') ← parseVal hook f (skipWs rest')
          match skipWs rest'' with
          | ',' :: rest3 =>
              (parseMembers hook f (skipWs rest3)).map
                (fun r => ((String.mk kchars, v) :: r.1, r.2))
          | '\x7d' :: rest3 => some ([(String.mk kchars, v)], rest3)
          | _ => none
      | _ => none) := rfl
theorem parseVal_list_close (hook : Obj → Option JValue) (f : Nat) (rest r : List Char)
    (h : skipWs rest = ']' :: r) :
    parseVal hook (f + 1) ('[' :: rest) = some (JValue.list [], r) := by
  have h0 : parseVal hook (f + 1) ('[' :: rest) = (match skipWs rest with
      | ']' :: rest' => some (JValue.list [], rest')
      | rest' => (parseItems hook f rest').map (fun r => (JValue.list r.1, r.2))) := rfl
  rw [h0, h]
  rfl

theorem parseVal_list_go (hook : Obj → Option JValue) (f : Nat) (rest : List Char)
    (h : ∀ r, skipWs rest ≠ ']' :: r) :
    parseVal hook (f + 1) ('[' :: rest) =
      (parseItems hook f (skipWs rest)).map (fun r => (JValue.list r.1, r.2)) := by
  have h0 : parseVal hook (f + 1) ('[' :: rest) = (match skipWs rest with
      | ']' :: rest' => some (JValue.list [], rest')
      | rest' => (parseItems hook f rest').map (fun r => (JValue.list r.1, r.2))) := rfl
  rw [h0]
  split
  · rename_i r' heq; exact absurd heq (h r')
  · rfl

theorem parseVal_obj_close (hook : Obj → Option JValue) (f : Nat) (rest r : List Char)
    (h : skipWs rest = '\x7d' :: r) :
    parseVal hook (f + 1) ('\x7b' :: rest) = (hook []).map (fun v => (v, r)) := by
  have h0 : parseVal hook (f + 1) ('\x7b' :: rest) = (match skipWs rest with
      | '\x7d' :: rest' => (hook []).map (fun v => (v, rest'))
      | rest' => do
          let (kvs, rest'') ← parseMembers hook f rest'
          let v ← hook kvs
          some (v, rest'')) := rfl
  rw [h0, h]
  rfl

theorem parseVal_obj_go (hook : Obj → Option JValue) (f : Nat) (rest : List Char)
    (h : ∀ r, skipWs rest ≠ '\x7d' :: r) :
    parseVal hook (f + 1) ('\x7b' :: rest) = (do
      let (kvs, rest'') ← parseMembers hook f (skipWs rest)
      let v ← hook kvs
      some (v, rest'')) := by
  have h0 : parseVal hook (f + 1) ('\x7b' :: rest) = (match skipWs rest with
      | '\x7d' :: rest' => (hook []).map (fun v => (v, rest'))
      | rest' => do
          let (kvs, rest'') ← parseMembers hook f rest'
          let v ← hook kvs
          some (v, rest'')) := rfl
  rw [h0]
  split
  · rename_i r' heq; exact absurd heq (h r')
  · rfl

theorem parseVal_digit (hook : Obj → Option JValue) (f : Nat) (c : Char) (cs : List Char)
    (h : isDigitC c = true) :
    parseVal hook (f + 1) (c :: cs) =
      (parseNatNum (c :: cs)).map (fun r => (JValue.int (r.1 : Int), r.2)) := by
  rw [parseVal.eq_def]
  split
  · rename_i heq; exact absurd heq (by omega)
  · rename_i f' heq
    injection heq with hf
    subst hf
    split
    · rename_i r heq2; injection heq2 with hc _; subst hc; exact absurd h (by decide)
    · rename_i r heq2; injection heq2 with hc _; subst hc; exact absurd h (by decide)
    · rename_i r heq2; injection heq2 with hc _; subst hc; exact absurd h (by decide)
    · rename_i r heq2; injection heq2 with hc _; subst hc; exact absurd h (by decide)
    · rename_i r heq2; injection heq2 with hc _; subst hc; exact absurd h (by decide)
    · rename_i r heq2; injection heq2 with hc _; subst hc; exact absurd h (by decide)
    · rename_i r heq2; injection heq2 with hc _; subst hc; exact absurd h (by decide)
    · rename_i c' cs' heq2
      injection heq2 with hc hcs
      subst hc; subst hcs
      rw [if_pos h]
    · rename_i heq2; exact absurd heq2 (by simp)
theorem digitChar_toNat (n : Nat) (h : n < 10) : (digitChar n).toNat = 48 + n :=
  charToNat_ofNat _ (Or.inl (by omega))

theorem isDigitC_digitChar (n : Nat) (h : n < 10) : isDigitC (digitChar n) = true := by
  simp only [isDigitC, digitChar_toNat n h, decide_eq_true_eq]
  omega

theorem natCharsAux_spec (fuel : Nat) : ∀ n, n < fuel →
    natCharsAux fuel n ≠ [] ∧ (∀ c ∈ natCharsAux fuel n, isDigitC c = true) ∧
      digitsToNat (natCharsAux fuel n) = n := by
  induction fuel with
  | zero => intro n hn; omega
  | succ fuel ih =>
      intro n hn
      by_cases h10 : n < 10
      · rw [show natCharsAux (fuel + 1) n = [digitChar n] by rw [natCharsAux]; rw [if_pos h10]]
        refine ⟨by simp, ?_, ?_⟩
        · intro c hc
          rw [List.mem_singleton] at hc
          subst hc
          exact isDigitC_digitChar n h10
        · simp [digitsToNat, digitChar_toNat n h10]
      · have hdiv : n / 10 < fuel := by
          have := Nat.div_lt_self (by omega : 0 < n) (by omega : 1 < 10)
          omega
        obtain ⟨hne, hdig, hval⟩ := ih (n / 10) hdiv
        rw [show natCharsAux (fuel + 1) n =
            natCharsAux fuel (n / 10) ++ [digitChar (n % 10)] by
          rw [natCharsAux]; rw [if_neg h10]]
        refine ⟨by simp, ?_, ?_⟩
        · intro c hc
          rw [List.mem_append, List.mem_singleton] at hc
          rcases hc with hc | hc
          · exact hdig c hc
          · subst hc; exact isDigitC_digitChar _ (by omega)
        · simp only [digitsToNat, List.foldl_append] at hval ⊢
          simp only [List.foldl_cons, List.foldl_nil, hval,
            digitChar_toNat (n % 10) (by omega)]
          omega

theorem natChars_spec (n : Nat) :
    natChars n ≠ [] ∧ (∀ c ∈ natChars n, isDigitC c = true) ∧
      digitsToNat (natChars n) = n :=
  natCharsAux_spec (n + 1) n (by omega)

theorem takeWhile_all_append (p : Char → Bool) (l rest : List Char)
    (h : ∀ c ∈ l, p c = true) :
    (l ++ rest).takeWhile p = l ++ rest.takeWhile p := by
  induction l with
  | nil => rfl
  | cons c l ih =>
      rw [List.cons_append, List.takeWhile_cons, h c (List.mem_cons_self c l),
        ih (fun d hd => h d (List.mem_cons_of_mem c hd)), List.cons_append, if_pos rfl]

theorem dropWhile_all_append (p : Char → Bool) (l rest : List Char)
    (h : ∀ c ∈ l, p c = true) :
    (l ++ rest).dropWhile p = rest.dropWhile p := by
  induction l with
  | nil => rfl
  | cons c l ih =>
      rw [List.cons_append, List.dropWhile_cons, h c (List.mem_cons_self c l), if_pos rfl]
      exact ih (fun d hd => h d (List.mem_cons_of_mem c hd))

theorem takeWhile_isDigit_nil (rest : List Char) (h : headNotDigit rest = true) :
    rest.takeWhile isDigitC = [] := by
  cases rest with
  | nil => rfl
  | cons c r =>
      simp only [headNotDigit, Bool.not_eq_true'] at h
      rw [List.takeWhile_cons, h]
      rfl

theorem dropWhile_isDigit_self (rest : List Char) (h : headNotDigit rest = true) :
    rest.dropWhile isDigitC = rest := by
  cases rest with
  | nil => rfl
  | cons c r =>
      simp only [headNotDigit, Bool.not_eq_true'] at h
      rw [List.dropWhile_cons, h]
      rfl

theorem parseNatNum_natChars (n : Nat) (rest : List Char) (h : headNotDigit rest = true) :
    parseNatNum (natChars n ++ rest) = some (n, rest) := by
  obtain ⟨hne, hdig, hval⟩ := natChars_spec n
  unfold parseNatNum
  rw [takeWhile_all_append _ _ _ hdig, takeWhile_isDigit_nil rest h, List.append_nil,
    dropWhile_all_append _ _ _ hdig, dropWhile_isDigit_self rest h]
  obtain ⟨c, cs, hc⟩ := List.exists_cons_of_ne_nil hne
  rw [hc]
  show some (digitsToNat (c :: cs), rest) = some (n, rest)
  rw [← hc, hval]

theorem parseVal_intChars (hook : Obj → Option JValue) (f : Nat) (n : Int) (rest : List Char)
    (hrest : headNotDigit rest = true) :
    parseVal hook (f + 1) (intChars n ++ rest) = some (JValue.int n, rest) := by
  unfold intChars
  by_cases hn : n < 0
  · rw [if_pos hn, List.cons_append, parseVal_neg, parseNatNum_natChars _ _ hrest]
    have : -((n.natAbs : Nat) : Int) = n := by omega
    show some (JValue.int (-((n.natAbs : Nat) : Int)), rest) = some (JValue.int n, rest)
    rw [this]
  · rw [if_neg hn]
    obtain ⟨hne, hdig, -⟩ := natChars_spec n.natAbs
    obtain ⟨c, cs, hc⟩ := List.exists_cons_of_ne_nil hne
    have hcd : isDigitC c = true := hdig c (by rw [hc]; exact List.mem_cons_self c cs)
    rw [hc, List.cons_append, parseVal_digit hook f c _ hcd, ← List.cons_append, ← hc,
      parseNatNum_natChars _ _ hrest]
    have : ((n.natAbs : Nat) : Int) = n := by omega
    show some (JValue.int ((n.natAbs : Nat) : Int), rest) = some (JValue.int n, rest)
    rw [this]
theorem valHeadOk_digit (c : Char) (h : isDigitC c = true) : valHeadOk c = true := by
  simp only [isDigitC, decide_eq_true_eq] at h
  have hsp : c ≠ ' ' := fun hc => absurd (hc ▸ h) (by decide)
  have hta : c ≠ '\t' := fun hc => absurd (hc ▸ h) (by decide)
  have hnl : c ≠ '\n' := fun hc => absurd (hc ▸ h) (by decide)
  have hcr : c ≠ '\r' := fun hc => absurd (hc ▸ h) (by decide)
  have hbr : c ≠ ']' := fun hc => absurd (hc ▸ h) (by decide)
  have hbc : c ≠ '\x7d' := fun hc => absurd (hc ▸ h) (by decide)
  simp [valHeadOk, isJsonWs, hsp, hta, hnl, hcr, hbr, hbc]

theorem printJson_head (v : JValue) :
    ∃ c cs, printJson v = c :: cs ∧ valHeadOk c = true := by
  cases v with
  | null => exact ⟨'n', _, rfl, by decide⟩
  | bool b => cases b with
      | true => exact ⟨'t', _, rfl, by decide⟩
      | false => exact ⟨'f', _, rfl, by decide⟩
  | int n =>
      show ∃ c cs, intChars n = c :: cs ∧ valHeadOk c = true
      unfold intChars
      by_cases hn : n < 0
      · rw [if_pos hn]; exact ⟨'-', _, rfl, by decide⟩
      · rw [if_neg hn]
        obtain ⟨hne, hdig, -⟩ := natChars_spec n.natAbs
        obtain ⟨c, cs, hc⟩ := List.exists_cons_of_ne_nil hne
        exact ⟨c, cs, hc, valHeadOk_digit c (hdig c (by rw [hc]; exact List.mem_cons_self c cs))⟩
  | str s => exact ⟨'"', _, rfl, by decide⟩
  | list xs => exact ⟨'[', _, rfl, by decide⟩
  | obj kvs => exact ⟨'\x7b', _, rfl, by decide⟩

theorem skipWs_cons_of (c : Char) (cs : List Char) (h : isJsonWs c = false) :
    skipWs (c :: cs) = c :: cs := by
  rw [skipWs, List.dropWhile_cons, h]
  rfl

theorem skipWs_cons_ws (c : Char) (cs : List Char) (h : isJsonWs c = true) :
    skipWs (c :: cs) = skipWs cs := by
  rw [skipWs, List.dropWhile_cons, h]
  rfl

theorem valHeadOk_not_ws (c : Char) (h : valHeadOk c = true) : isJsonWs c = false := by
  simp only [valHeadOk, Bool.and_eq_true, Bool.not_eq_true'] at h
  exact h.1.1

theorem valHeadOk_ne_rbracket (c : Char) (h : valHeadOk c = true) : c ≠ ']' := by
  simp only [valHeadOk, Bool.and_eq_true, Bool.not_eq_true', decide_eq_false_iff_not] at h
  exact h.1.2

theorem valHeadOk_ne_rbrace (c : Char) (h : valHeadOk c = true) : c ≠ '\x7d' := by
  simp only [valHeadOk, Bool.and_eq_true, Bool.not_eq_true', decide_eq_false_iff_not] at h
  exact h.2

theorem skipWs_printJson (v : JValue) (rest : List Char) :
    skipWs (printJson v ++ rest) = printJson v ++ rest := by
  obtain ⟨c, cs, hc, hok⟩ := printJson_head v
  rw [hc, List.cons_append]
  exact skipWs_cons_of c _ (valHeadOk_not_ws c hok)

theorem printJsonItems_cons (y : JValue) (xs : List JValue) :
    ∃ t, printJsonItems (y :: xs) = printJson y ++ t := by
  cases xs with
  | nil => exact ⟨[], by simp [printJsonItems]⟩
  | cons x xs' => exact ⟨',' :: ' ' :: printJsonItems (x :: xs'), rfl⟩
theorem printJsonMembers_head (k : String) (v : JValue) (kvs : List (String × JValue)) :
    ∃ t, printJsonMembers ((k, v) :: kvs) = '"' :: t := by
  cases kvs with
  | nil => exact ⟨_, rfl⟩
  | cons p ps => exact ⟨_, rfl⟩

mutual
theorem parseVal_print (hook : Obj → Option JValue)
    (hhook : ∀ kvs, lookupA kvs "__class__" = none → hook kvs = some (JValue.obj kvs))
    (v : JValue) (rest : List Char) (fuel : Nat) (hnc : noClassKey v = true)
    (hrest : headNotDigit rest = true)
    (hf : 2 * (printJson v ++ rest).length + 2 ≤ fuel) :
    parseVal hook fuel (printJson v ++ rest) = some (v, rest) := by
  obtain ⟨f, rfl⟩ : ∃ f, fuel = f + 1 := ⟨fuel - 1, by omega⟩
  cases v with
  | null =>
      show parseVal hook (f + 1) ('n' :: 'u' :: 'l' :: 'l' :: rest) = _
      exact parseVal_null hook f rest
  | bool b =>
      cases b with
      | true =>
          show parseVal hook (f + 1) ('t' :: 'r' :: 'u' :: 'e' :: rest) = _
          exact parseVal_true hook f rest
      | false =>
          show parseVal hook (f + 1) ('f' :: 'a' :: 'l' :: 's' :: 'e' :: rest) = _
          exact parseVal_false hook f rest
  | int n =>
      show parseVal hook (f + 1) (intChars n ++ rest) = _
      exact parseVal_intChars hook f n rest hrest
  | str s =>
      have hin : printJson (JValue.str s) ++ rest =
          '"' :: (s.data.flatMap escapeChar ++ '"' :: rest) := by
        show ('"' :: (s.data.flatMap escapeChar ++ ['"'])) ++ rest = _
        rw [List.cons_append, List.append_assoc]
        rfl
      rw [hin, parseVal_str, parseJStringBody_escaped s.data rest f (by
        have : (printJson (JValue.str s) ++ rest).length =
            (s.data.flatMap escapeChar).length + 2 + rest.length := by
          rw [hin]; simp; omega
        omega)]
      rfl
  | list xs =>
      cases xs with
      | nil =>
          show parseVal hook (f + 1) ('[' :: ']' :: rest) = _
          exact parseVal_list_close hook f (']' :: rest) rest
            (skipWs_cons_of ']' rest (by decide))
      | cons x xs' =>
          have hin : printJson (JValue.list (x :: xs')) ++ rest =
              '[' :: (printJsonItems (x :: xs') ++ ']' :: rest) := by
            show ('[' :: (printJsonItems (x :: xs') ++ [']'])) ++ rest = _
            rw [List.cons_append, List.append_assoc]
            rfl
          obtain ⟨t, ht⟩ := printJsonItems_cons x xs'
          obtain ⟨c, cs0, hc, hok⟩ := printJson_head x
          have hskip : skipWs (printJsonItems (x :: xs') ++ ']' :: rest) =
              printJsonItems (x :: xs') ++ ']' :: rest := by
            rw [ht, List.append_assoc, skipWs_printJson, ← List.append_assoc]
          have hnotclose : ∀ r, skipWs (printJsonItems (x :: xs') ++ ']' :: rest) ≠
              ']' :: r := by
            intro r hEq
            rw [hskip, ht, hc, List.append_assoc, List.cons_append] at hEq
            injection hEq with hc1 _
            exact valHeadOk_ne_rbracket c hok hc1
          have hlen : (printJson (JValue.list (x :: xs')) ++ rest).length =
              (printJsonItems (x :: xs')).length + 2 + rest.length := by
            rw [hin]; simp; omega
          rw [hin, parseVal_list_go hook f _ hnotclose, hskip,
            parseItems_print hook hhook (x :: xs') rest f hnc (by simp) (by
              simp only [List.length_append, List.length_cons]; omega)]
          rfl
  | obj kvs =>
      cases kvs with
      | nil =>
          show parseVal hook (f + 1) ('\x7b' :: '\x7d' :: rest) = _
          rw [parseVal_obj_close hook f ('\x7d' :: rest) rest
            (skipWs_cons_of '\x7d' rest (by decide)), hhook [] rfl]
          rfl
      | cons kv kvs' =>
          obtain ⟨k, v⟩ := kv
          have hnc2 : ((lookupA ((k, v) :: kvs') "__class__").isNone &&
              noClassKeyObj ((k, v) :: kvs')) = true := hnc
          rw [Bool.and_eq_true] at hnc2
          obtain ⟨hlk, hvals⟩ := hnc2
          have hin : printJson (JValue.obj ((k, v) :: kvs')) ++ rest =
              '\x7b' :: (printJsonMembers ((k, v) :: kvs') ++ '\x7d' :: rest) := by
            show ('\x7b' :: (printJsonMembers ((k, v) :: kvs') ++ ['\x7d'])) ++ rest = _
            rw [List.cons_append, List.append_assoc]
            rfl
          obtain ⟨t, ht⟩ := printJsonMembers_head k v kvs'
          have hskip : skipWs (printJsonMembers ((k, v) :: kvs') ++ '\x7d' :: rest) =
              printJsonMembers ((k, v) :: kvs') ++ '\x7d' :: rest := by
            rw [ht, List.cons_append]
            exact skipWs_cons_of '"' _ (by decide)
          have hnotclose : ∀ r, skipWs (printJsonMembers ((k, v) :: kvs') ++ '\x7d' :: rest) ≠
              '\x7d' :: r := by
            intro r hEq
            rw [hskip, ht, List.cons_append] at hEq
            injection hEq with hc1 _
            exact absurd hc1 (by decide)
          have hlen : (printJson (JValue.obj ((k, v) :: kvs')) ++ rest).length =
              (printJsonMembers ((k, v) :: kvs')).length + 2 + rest.length := by
            rw [hin]; simp; omega
          rw [hin, parseVal_obj_go hook f _ hnotclose, hskip,
            parseMembers_print hook hhook ((k, v) :: kvs') rest f hvals (by simp) (by
              simp only [List.length_append, List.length_cons]; omega)]
          show (hook ((k, v) :: kvs')).bind (fun v0 => some (v0, rest)) = _
          rw [hhook ((k, v) :: kvs') (Option.isNone_iff_eq_none.mp hlk)]
          rfl

theorem parseItems_print (hook : Obj → Option JValue)
    (hhook : ∀ kvs, lookupA kvs "__class__" = none → hook kvs = some (JValue.obj kvs))
    (xs : List JValue) (rest : List Char) (fuel : Nat) (hnc : noClassKeyList xs = true)
    (hne : xs ≠ [])
    (hf : 2 * (printJsonItems xs ++ ']' :: rest).length + 3 ≤ fuel) :
    parseItems hook fuel (printJsonItems xs ++ ']' :: rest) = some (xs, rest) := by
  obtain ⟨g, rfl⟩ : ∃ g, fuel = g + 1 := ⟨fuel - 1, by omega⟩
  cases xs with
  | nil => exact absurd rfl hne
  | cons x xs' =>
      have hnc2 : (noClassKey x && noClassKeyList xs') = true := hnc
      rw [Bool.and_eq_true] at hnc2
      obtain ⟨hx, hxs⟩ := hnc2
      rw [parseItems_step]
      cases xs' with
      | nil =>
          rw [show printJsonItems [x] = printJson x from rfl] at hf ⊢
          rw [parseVal_print hook hhook x (']' :: rest) g hx rfl (by
            simp only [List.length_append, List.length_cons] at hf ⊢; omega)]
          show (match skipWs (']' :: rest) with
            | ',' :: rest' => (parseItems hook g (skipWs rest')).map (fun r => (x :: r.1, r.2))
            | ']' :: rest' => some ([x], rest')
            | _ => none) = some ([x], rest)
          rw [skipWs_cons_of ']' rest (by decide)]
          rfl
      | cons y ys =>
          have hPI : printJsonItems (x :: y :: ys) =
              printJson x ++ ',' :: ' ' :: printJsonItems (y :: ys) := rfl
          have hin : printJsonItems (x :: y :: ys) ++ ']' :: rest =
              printJson x ++ (',' :: ' ' :: (printJsonItems (y :: ys) ++ ']' :: rest)) := by
            rw [hPI, List.append_assoc]
            rfl
          have hlen : (printJsonItems (x :: y :: ys)).length =
              (printJson x).length + 2 + (printJsonItems (y :: ys)).length := by
            rw [hPI]; simp; omega
          rw [hin, parseVal_print hook hhook x
            (',' :: ' ' :: (printJsonItems (y :: ys) ++ ']' :: rest)) g hx rfl (by
            simp only [List.length_append, List.length_cons] at hf ⊢; omega)]
          obtain ⟨t, ht⟩ := printJsonItems_cons y ys
          have hskip : skipWs (printJsonItems (y :: ys) ++ ']' :: rest) =
              printJsonItems (y :: ys) ++ ']' :: rest := by
            rw [ht, List.append_assoc, skipWs_printJson, ← List.append_assoc]
          show (match skipWs (',' :: ' ' :: (printJsonItems (y :: ys) ++ ']' :: rest)) with
            | ',' :: rest' => (parseItems hook g (skipWs rest')).map (fun r => (x :: r.1, r.2))
            | ']' :: rest' => some ([x], rest')
            | _ => none) = some (x :: y :: ys, rest)
          rw [skipWs_cons_of ',' _ (by decide)]
          show (parseItems hook g (skipWs (' ' :: (printJsonItems (y :: ys) ++ ']' :: rest)))).map
              (fun r => (x :: r.1, r.2)) = some (x :: y :: ys, rest)
          rw [skipWs_cons_ws ' ' _ (by decide), hskip,
            parseItems_print hook hhook (y :: ys) rest g hxs (by simp) (by
              simp only [List.length_append, List.length_cons] at hf ⊢; omega)]
          rfl

theorem parseMembers_print (hook : Obj → Option JValue)
    (hhook : ∀ kvs, lookupA kvs "__class__" = none → hook kvs = some (JValue.obj kvs))
    (kvs : List (String × JValue)) (rest : List Char) (fuel : Nat)
    (hnc : noClassKeyObj kvs = true) (hne : kvs ≠ [])
    (hf : 2 * (printJsonMembers kvs ++ '\x7d' :: rest).length + 3 ≤ fuel) :
    parseMembers hook fuel (printJsonMembers kvs ++ '\x7d' :: rest) = some (kvs, rest) := by
  obtain ⟨g, rfl⟩ : ∃ g, fuel = g + 1 := ⟨fuel - 1, by omega⟩
  cases kvs with
  | nil => exact absurd rfl hne
  | cons kv kvs' =>
      obtain ⟨k, v⟩ := kv
      have hnc2 : (noClassKey v && noClassKeyObj kvs') = true := hnc
      rw [Bool.and_eq_true] at hnc2
      obtain ⟨hv, hvs⟩ := hnc2
      cases kvs' with
      | nil =>
          have hin : printJsonMembers [(k, v)] ++ '\x7d' :: rest =
              '"' :: (k.data.flatMap escapeChar ++
                '"' :: (':' :: ' ' :: (printJson v ++ '\x7d' :: rest))) := by
            show (printJString k ++ ':' :: ' ' :: printJson v) ++ '\x7d' :: rest = _
            rw [show printJString k = '"' :: (k.data.flatMap escapeChar ++ ['"']) from rfl,
              List.cons_append, List.cons_append, List.append_assoc, List.append_assoc]
            rfl
          have hlen : (printJsonMembers [(k, v)]).length =
              (k.data.flatMap escapeChar).length + 4 + (printJson v).length := by
            show (printJString k ++ ':' :: ' ' :: printJson v).length = _
            simp [printJString]
            omega
          rw [hin, parseMembers_step,
            parseJStringBody_escaped k.data (':' :: ' ' :: (printJson v ++ '\x7d' :: rest)) g
              (by simp only [List.length_append, List.length_cons] at hf ⊢; omega)]
          show (match skipWs (':' :: ' ' :: (printJson v ++ '\x7d' :: rest)) with
            | ':' :: rest' => (parseVal hook g (skipWs rest')).bind (fun p =>
                match skipWs p.2 with
                | ',' :: rest3 =>
                    (parseMembers hook g (skipWs rest3)).map
                      (fun r => ((String.mk k.data, p.1) :: r.1, r.2))
                | '\x7d' :: rest3 => some ([(String.mk k.data, p.1)], rest3)
                | _ => none)
            | _ => none) = some ([(k, v)], rest)
          rw [skipWs_cons_of ':' _ (by decide)]
          show (parseVal hook g (skipWs (' ' :: (printJson v ++ '\x7d' :: rest)))).bind (fun p =>
              match skipWs p.2 with
              | ',' :: rest3 =>
                  (parseMembers hook g (skipWs rest3)).map
                    (fun r => ((String.mk k.data, p.1) :: r.1, r.2))
              | '\x7d' :: rest3 => some ([(String.mk k.data, p.1)], rest3)
              | _ => none) = some ([(k, v)], rest)
          rw [skipWs_cons_ws ' ' _ (by decide), skipWs_printJson,
            parseVal_print hook hhook v ('\x7d' :: rest) g hv rfl (by
              simp only [List.length_append, List.length_cons] at hf ⊢; omega)]
          show (match skipWs ('\x7d' :: rest) with
            | ',' :: rest3 =>
                (parseMembers hook g (skipWs rest3)).map
                  (fun r => ((String.mk k.data, v) :: r.1, r.2))
            | '\x7d' :: rest3 => some ([(String.mk k.data, v)], rest3)
            | _ => none) = some ([(k, v)], rest)
          rw [skipWs_cons_of '\x7d' _ (by decide)]
          rfl
      | cons p ps =>
          have hm : printJsonMembers ((k, v) :: p :: ps) =
              printJString k ++ ':' :: ' ' :: printJson v ++
                ',' :: ' ' :: printJsonMembers (p :: ps) := rfl
          have hin : printJsonMembers ((k, v) :: p :: ps) ++ '\x7d' :: rest =
              '"' :: (k.data.flatMap escapeChar ++
                '"' :: (':' :: ' ' :: (printJson v ++
                  ',' :: ' ' :: (printJsonMembers (p :: ps) ++ '\x7d' :: rest)))) := by
            rw [hm, show printJString k = '"' :: (k.data.flatMap escapeChar ++ ['"']) from rfl]
            simp only [List.cons_append, List.append_assoc, List.nil_append]
          have hlen : (printJsonMembers ((k, v) :: p :: ps)).length =
              (k.data.flatMap escapeChar).length + 6 + (printJson v).length +
                (printJsonMembers (p :: ps)).length := by
            rw [hm]
            simp [printJString]
            omega
          rw [hin, parseMembers_step,
            parseJStringBody_escaped k.data _ g
              (by simp only [List.length_append, List.length_cons] at hf ⊢; omega)]
          show (match skipWs (':' :: ' ' :: (printJson v ++
              ',' :: ' ' :: (printJsonMembers (p :: ps) ++ '\x7d' :: rest))) with
            | ':' :: rest' => (parseVal hook g (skipWs rest')).bind (fun q =>
                match skipWs q.2 with
                | ',' :: rest3 =>
                    (parseMembers hook g (skipWs rest3)).map
                      (fun r => ((String.mk k.data, q.1) :: r.1, r.2))
                | '\x7d' :: rest3 => some ([(String.mk k.data, q.1)], rest3)
                | _ => none)
            | _ => none) = some ((k, v) :: p :: ps, rest)
          rw [skipWs_cons_of ':' _ (by decide)]
          show (parseVal hook g (skipWs (' ' :: (printJson v ++
              ',' :: ' ' :: (printJsonMembers (p :: ps) ++ '\x7d' :: rest))))).bind (fun q =>
              match skipWs q.2 with
              | ',' :: rest3 =>
                  (parseMembers hook g (skipWs rest3)).map
                    (fun r => ((String.mk k.data, q.1) :: r.1, r.2))
              | '\x7d' :: rest3 => some ([(String.mk k.data, q.1)], rest3)
              | _ => none) = some ((k, v) :: p :: ps, rest)
          rw [skipWs_cons_ws ' ' _ (by decide), skipWs_printJson,
            parseVal_print hook hhook v
              (',' :: ' ' :: (printJsonMembers (p :: ps) ++ '\x7d' :: rest)) g hv rfl (by
              simp only [List.length_append, List.length_cons] at hf ⊢; omega)]
          obtain ⟨k2, v2⟩ := p
          obtain ⟨t, ht⟩ := printJsonMembers_head k2 v2 ps
          have hskip : skipWs (printJsonMembers ((k2, v2) :: ps) ++ '\x7d' :: rest) =
              printJsonMembers ((k2, v2) :: ps) ++ '\x7d' :: rest := by
            rw [ht, List.cons_append]
            exact skipWs_cons_of '"' _ (by decide)
          show (match skipWs (',' :: ' ' ::
              (printJsonMembers ((k2, v2) :: ps) ++ '\x7d' :: rest)) with
            | ',' :: rest3 =>
                (parseMembers hook g (skipWs rest3)).map
                  (fun r => ((String.mk k.data, v) :: r.1, r.2))
            | '\x7d' :: rest3 => some ([(String.mk k.data, v)], rest3)
            | _ => none) = some ((k, v) :: (k2, v2) :: ps, rest)
          rw [skipWs_cons_of ',' _ (by decide)]
          show (parseMembers hook g (skipWs (' ' ::
              (printJsonMembers ((k2, v2) :: ps) ++ '\x7d' :: rest)))).map
              (fun r => ((String.mk k.data, v) :: r.1, r.2)) =
            some ((k, v) :: (k2, v2) :: ps, rest)
          rw [skipWs_cons_ws ' ' _ (by decide), hskip,
            parseMembers_print hook hhook ((k2, v2) :: ps) rest g hvs (by simp) (by
              simp only [List.length_append, List.length_cons] at hf ⊢; omega)]
          rfl
end
/-- Claim C9, corrected: `JSONSerializer.dumps` returns UTF-8 bytes that
decode back to the encoder's text, and `loads (dumps x) = some x` holds
for every JSON-representable value `x` provided no mapping anywhere in
`x` binds the reserved key `"__class__"` -- for every behaviour of the
external import machinery and of pydantic.  The proviso is necessary:
`loads` installs `prefect_json_object_decoder` as `object_hook`, which
rebuilds (or fails on) any parsed mapping holding that key, see
the counterexample to the original unconditional round-trip claim. -/
theorem C9_json_roundtrip {α : Type} (resolveClass : String → Option α)
    (parseObjAs : α → JValue → Option JValue) (x : JValue) (h : noClassKey x = true) :
    utf8Decode (JSONSerializer_dumps x) = some (printJson x) ∧
    JSONSerializer_loads resolveClass parseObjAs (JSONSerializer_dumps x) = some x := by
  have hdec : utf8Decode (JSONSerializer_dumps x) = some (printJson x) :=
    utf8Decode_utf8Encode (String.mk (printJson x))
  refine ⟨hdec, ?_⟩
  unfold JSONSerializer_loads
  rw [hdec]
  have hhook : ∀ kvs, lookupA kvs "__class__" = none →
      prefect_json_object_decoder resolveClass parseObjAs kvs = some (JValue.obj kvs) := by
    intro kvs hk
    unfold prefect_json_object_decoder
    rw [hk]
  have hskip : skipWs (printJson x) = printJson x := by
    have h0 := skipWs_printJson x []
    rw [List.append_nil] at h0
    exact h0
  have hx := parseVal_print (prefect_json_object_decoder resolveClass parseObjAs) hhook x []
    (2 * (printJson x).length + 2) h rfl (by rw [List.append_nil])
  rw [List.append_nil] at hx
  show (match parseVal (prefect_json_object_decoder resolveClass parseObjAs)
      (2 * (printJson x).length + 2) (skipWs (printJson x)) with
    | some (v, rest) => if skipWs rest = [] then some v else none
    | none => none) = some x
  rw [hskip, hx]
  rfl

/-- Witness for C9 on a concrete nested value, with an import machinery
that resolves nothing. -/
theorem C9_witness :
    noClassKey (JValue.obj
      [("a", JValue.list [JValue.int (-5), JValue.str "x", JValue.null]),
       ("b", JValue.bool true)]) = true ∧
    JSONSerializer_loads (fun _ => (none : Option Unit)) (fun _ _ => none)
      (JSONSerializer_dumps (JValue.obj
        [("a", JValue.list [JValue.int (-5), JValue.str "x", JValue.null]),
         ("b", JValue.bool true)])) =
      some (JValue.obj
        [("a", JValue.list [JValue.int (-5), JValue.str "x", JValue.null]),
         ("b", JValue.bool true)]) :=
  ⟨by decide,
   (C9_json_roundtrip (fun _ => (none : Option Unit)) (fun _ _ => none) _ (by decide)).2⟩

/-- Loading the printed form of the JSON-representable mapping with the
single pair `"__class__": "nonexistent.module"` fails whatever the
machinery of importing and pydantic do, because the decoder hook fires on the
reserved key and `result["data"]` raises a `KeyError` (and
`from_qualified_name` already raises for this path in the real
deployment). -/
theorem loads_classKey_fails : ∀ {α : Type} (resolveClass : String → Option α)
    (parseObjAs : α → JValue → Option JValue),
    JSONSerializer_loads resolveClass parseObjAs
      (JSONSerializer_dumps (JValue.obj [("__class__", JValue.str "nonexistent.module")])) =
      none := by
  intro α rc po
  have hexp : JSONSerializer_loads rc po
      (JSONSerializer_dumps (JValue.obj [("__class__", JValue.str "nonexistent.module")])) =
      (match ((rc "nonexistent.module").bind
          (fun _ => (none : Option JValue))).bind
          (fun v => some (v, ([] : List Char))) with
        | some (v, rest) => if skipWs rest = [] then some v else none
        | none => none) := rfl
  rw [hexp]
  cases rc "nonexistent.module" <;> rfl

/-- Counterexample to the original C9 claim: the JSON-representable
mapping with the single pair `"__class__": "nonexistent.module"` dumps
fine (to the expected UTF-8 bytes) but fails to load; the hooks
standing for the import machinery and pydantic are instantiated here,
and `loads_classKey_fails` shows every other instantiation fails the
same way. -/
theorem C9_counterexample :
    JSONSerializer_loads (fun _ => (none : Option Unit)) (fun _ _ => none)
      (JSONSerializer_dumps (JValue.obj [("__class__", JValue.str "nonexistent.module")])) =
      none ∧
    JSONSerializer_dumps (JValue.obj [("__class__", JValue.str "nonexistent.module")]) =
      utf8Encode "\x7b\"__class__\": \"nonexistent.module\"\x7d" :=
  ⟨rfl, rfl⟩

/-- Claim C10: constructing a `JSONSerializer` raises the validator's
`ValueError` whenever `dumps_kwargs` binds the reserved key `"default"`
or `loads_kwargs` binds `"object_hook"`; any other kwargs pass through
unchanged, so a successfully constructed serializer never carries the
reserved keys. -/
theorem C10_reserved_kwargs (dk lk : Obj) :
    ((lookupA dk "default").isSome = true →
      mkJSONSerializer dk lk =
        Except.error "`default` cannot be provided. Use `object_encoder` instead.") ∧
    (lookupA dk "default" = none → (lookupA lk "object_hook").isSome = true →
      mkJSONSerializer dk lk =
        Except.error "`object_hook` cannot be provided. Use `object_decoder` instead.") ∧
    (lookupA dk "default" = none → lookupA lk "object_hook" = none →
      mkJSONSerializer dk lk = Except.ok ⟨dk, lk⟩) ∧
    (∀ m, mkJSONSerializer dk lk = Except.ok m →
      m = ⟨dk, lk⟩ ∧ lookupA m.dumps_kwargs "default" = none ∧
        lookupA m.loads_kwargs "object_hook" = none) := by
  have e1 : (lookupA dk "default").isSome = true →
      mkJSONSerializer dk lk =
        Except.error "`default` cannot be provided. Use `object_encoder` instead." := by
    intro h
    unfold mkJSONSerializer dumps_kwargs_validator
    rw [if_pos h]
    rfl
  have e2 : lookupA dk "default" = none → (lookupA lk "object_hook").isSome = true →
      mkJSONSerializer dk lk =
        Except.error "`object_hook` cannot be provided. Use `object_decoder` instead." := by
    intro h1 h2
    unfold mkJSONSerializer dumps_kwargs_validator loads_kwargs_validator
    rw [if_neg (by simp [h1]), if_pos h2]
    rfl
  have e3 : lookupA dk "default" = none → lookupA lk "object_hook" = none →
      mkJSONSerializer dk lk = Except.ok ⟨dk, lk⟩ := by
    intro h1 h2
    unfold mkJSONSerializer dumps_kwargs_validator loads_kwargs_validator
    rw [if_neg (by simp [h1]), if_neg (by simp [h2])]
    rfl
  refine ⟨e1, e2, e3, ?_⟩
  intro m hm
  cases hlk : lookupA dk "default" with
  | some v => rw [e1 (by rw [hlk]; rfl)] at hm; exact Except.noConfusion hm
  | none =>
      cases hlk2 : lookupA lk "object_hook" with
      | some v => rw [e2 hlk (by rw [hlk2]; rfl)] at hm; exact Except.noConfusion hm
      | none =>
          rw [e3 hlk hlk2] at hm
          injection hm with hm'
          subst hm'
          exact ⟨rfl, hlk, hlk2⟩

/-- Witness for C10: both rejections and one acceptance, concretely. -/
theorem C10_witness :
    mkJSONSerializer [("default", JValue.null)] [] =
      Except.error "`default` cannot be provided. Use `object_encoder` instead." ∧
    mkJSONSerializer [] [("object_hook", JValue.null)] =
      Except.error "`object_hook` cannot be provided. Use `object_decoder` instead." ∧
    mkJSONSerializer [("sort_keys", JValue.bool true)] [("parse_int", JValue.str "int")] =
      Except.ok ⟨[("sort_keys", JValue.bool true)], [("parse_int", JValue.str "int")]⟩ :=
  ⟨(C10_reserved_kwargs _ _).1 rfl,
   (C10_reserved_kwargs _ _).2.1 rfl rfl,
   (C10_reserved_kwargs _ _).2.2.1 rfl rfl⟩

end PrefectSpec
